import Mathlib

/-!
# Verification of the qpm-backend package registry core

Shallow embedding of the registry's core operations, translated from the
TypeScript source:

* `src/utils/validation.ts` — scope normalization, name/version validation,
  `compareVersions`, `findLatestVersion`;
* `src/utils/storage.ts` — R2 key scheme, version-existence probe, index
  maintenance (`updateIndex`, `deletePackageVersion`, `getVersionList`);
* `src/utils/endpoint-permissions.ts` — `checkPermissions`;
* `src/utils/permissions.ts` — the KV-backed permission store;
* `src/durable-objects/RateLimiter.ts` — the fixed-window rate limiter;
* `src/utils/package-parser.ts` — `extractDependencies`;
* the `PackageUpload.handle` upload pipeline and the `PackageList.handle`
  version-list endpoint.

JavaScript-specific semantics that the source relies on are modelled
explicitly: `Number(...)` on version components (with `NaN`),
`Array.prototype.sort` (stable, a comparator result of `NaN` is treated as
`+0` per ECMA-262 SortCompare), strict inequality `!==` (where
`NaN !== NaN` is true but `undefined !== undefined` is false), and
`String.prototype.toLowerCase` on the ASCII range (scope strings, package
names and archive paths in this registry are ASCII, where the full Unicode
lowercase map agrees with the ASCII map). External collaborators (GitHub
lookups, SHA-256, gzip decompression, JSON parsing) are oracles passed as
parameters; JSON round-trips through the R2 store are modelled as identity.
-/

/-! ## JavaScript string primitives -/
/-- Models `String.prototype.toLowerCase` on a single character, restricted
to the ASCII range: char codes 65–90 (`'A'..'Z'`) map to 97–122
(`'a'..'z'`), everything else is fixed.  The full Unicode lowercase map
agrees with this on ASCII, and all strings handled by the registry core —
scopes, package names, archive paths — are ASCII. -/
def jsToLowerChar (c : Char) : Char :=
  if 65 ≤ c.toNat ∧ c.toNat ≤ 90 then Char.ofNat (c.toNat + 32) else c

/-- Models `String.prototype.toLowerCase` (ASCII range, see `jsToLowerChar`). -/
def jsToLowerCase (s : String) : String :=
  ⟨s.data.map jsToLowerChar⟩

/-- From `src/utils/validation.ts`:
`normalizeScope(scope)` — remove a leading `@` if present, then lowercase:
`scope.startsWith("@") ? scope.slice(1).toLowerCase() : scope.toLowerCase()`. -/
def normalizeScope (s : String) : String :=
  match s.data with
  | '@' :: rest => ⟨rest.map jsToLowerChar⟩
  | _ => ⟨s.data.map jsToLowerChar⟩

/-! ## JavaScript numbers on version components

`Number(component)` for the strings that arise by splitting version strings
at dots: the empty string is `0`, decimal digit runs (optionally signed)
are their value, anything else is `NaN`.  (Exponent/hex/whitespace forms of
JS `Number` cannot arise from the semver-validated version strings the
registry stores.)  Indexing past the end of the parts array yields
`undefined`; `NaN` and `undefined` behave differently under `!==`
(`NaN !== NaN` is true, `undefined !== undefined` is false), so the model
keeps them distinct. -/
inductive JsNum where
  | int (x : Int)
  | nan
deriving DecidableEq

inductive JsComp where
  | num (x : JsNum)
  | jsUndefined
deriving DecidableEq

def digitsToNat (ds : List Char) : Nat :=
  ds.foldl (fun a c => a * 10 + (c.toNat - 48)) 0

/-- JS `Number()` on a version component (see section comment). -/
def jsNumberL (s : List Char) : JsNum :=
  if s = [] then .int 0
  else if s.all Char.isDigit then .int (digitsToNat s)
  else match s with
    | '-' :: r => if r ≠ [] ∧ r.all Char.isDigit then .int (-(digitsToNat r : Int)) else .nan
    | '+' :: r => if r ≠ [] ∧ r.all Char.isDigit then .int (digitsToNat r) else .nan
    | _ => .nan

/-- JS `String.prototype.split(".")` on the character list. -/
def splitOnDot : List Char → List (List Char)
  | [] => [[]]
  | c :: rest =>
    if c = '.' then [] :: splitOnDot rest
    else match splitOnDot rest with
      | g :: gs => (c :: g) :: gs
      | [] => [[c]]

/-- `version.split(".").map(Number)`. -/
def versionComps (cs : List Char) : List JsNum := (splitOnDot cs).map jsNumberL

/-- `parts[i]`: the JS value of indexing, `undefined` out of range. -/
def compAt (l : List JsNum) (i : Nat) : JsComp :=
  match l[i]? with
  | some x => .num x
  | none => .jsUndefined

/-- JS strict inequality `!==` on part values: `NaN !== NaN` is true,
`undefined !== undefined` is false. -/
def jsStrictNeq : JsComp → JsComp → Bool
  | .num (.int a), .num (.int b) => a ≠ b
  | .num .nan, _ => true
  | _, .num .nan => true
  | .jsUndefined, .jsUndefined => false
  | .jsUndefined, .num (.int _) => true
  | .num (.int _), .jsUndefined => true

/-- JS subtraction on part values: `NaN`/`undefined` poison the result
(`none` = `NaN`). -/
def jsSubNum : JsComp → JsComp → Option Int
  | .num (.int a), .num (.int b) => some (a - b)
  | _, _ => none

/-- JS `>` on part values: false whenever `NaN`/`undefined` is involved. -/
def jsGtNum : JsComp → JsComp → Bool
  | .num (.int a), .num (.int b) => b < a
  | _, _ => false

/-- `a.split(/[-+]/)[0]`: the prefix before the first `-` or `+`. -/
def headBeforeDashPlus (cs : List Char) : List Char :=
  cs.takeWhile (fun c => !(c == '-' || c == '+'))

/-- From `src/utils/validation.ts`: `compareVersions(a, b)` — strip
pre-release/build suffix, split at dots, map `Number`, compare the first
three components; returns 1 / -1 / 0. -/
def compareVersions (a b : String) : Int :=
  let ap := versionComps (headBeforeDashPlus a.data)
  let bp := versionComps (headBeforeDashPlus b.data)
  if jsGtNum (compAt ap 0) (compAt bp 0) then 1
  else if jsGtNum (compAt bp 0) (compAt ap 0) then -1
  else if jsGtNum (compAt ap 1) (compAt bp 1) then 1
  else if jsGtNum (compAt bp 1) (compAt ap 1) then -1
  else if jsGtNum (compAt ap 2) (compAt bp 2) then 1
  else if jsGtNum (compAt bp 2) (compAt ap 2) then -1
  else 0

/-- The inline comparator of `updateIndex` in `src/utils/storage.ts`:
`a.version.split(".").map(Number)` — note it does **not** strip
pre-release/build suffixes — then at the first index `i < 3` with
`aParts[i] !== bParts[i]` it returns `bParts[i] - aParts[i]` (which is
`NaN`, modelled `none`, when a part is `NaN`/`undefined`). -/
def indexSortCompare (a b : String) : Option Int :=
  let ap := versionComps a.data
  let bp := versionComps b.data
  if jsStrictNeq (compAt ap 0) (compAt bp 0) then jsSubNum (compAt bp 0) (compAt ap 0)
  else if jsStrictNeq (compAt ap 1) (compAt bp 1) then jsSubNum (compAt bp 1) (compAt ap 1)
  else if jsStrictNeq (compAt ap 2) (compAt bp 2) then jsSubNum (compAt bp 2) (compAt ap 2)
  else some 0

/-! ## JS `Array.prototype.sort`

Stable (guaranteed since ES2019); per ECMA-262 SortCompare a comparator
result of `NaN` is coerced to `+0`.  Modelled as a stable insertion sort:
an element is inserted before the first existing element it compares `≤ 0`
(or `NaN`) against, which preserves the original order of ties. -/
def jsCmpLe {α : Type} (c : α → α → Option Int) (x y : α) : Bool :=
  match c x y with
  | some v => v ≤ 0
  | none => true

def jsInsert {α : Type} (c : α → α → Option Int) (x : α) : List α → List α
  | [] => [x]
  | y :: ys => if jsCmpLe c x y then x :: y :: ys else y :: jsInsert c x ys

def jsSort {α : Type} (c : α → α → Option Int) : List α → List α
  | [] => []
  | x :: xs => jsInsert c x (jsSort c xs)

/-! ## Data model (from `src/types.ts`)

`dependencies` records are association lists in insertion order. -/
structure GitHubUser where
  login : String
  id : Nat
deriving DecidableEq

structure VersionInfo where
  version : String
  integrity : String
  size : Nat
  uploadedAt : String
  dependencies : List (String × String)
deriving DecidableEq

structure PackageMetadata where
  name : String
  version : String
  integrity : String
  size : Nat
  uploadedAt : String
  uploadedBy : String
  dependencies : List (String × String)
deriving DecidableEq

structure PackageIndex where
  name : String
  versions : List VersionInfo
deriving DecidableEq

/-- An object stored in the R2 bucket.  JSON (de)serialization is modelled
as identity: `JSON.parse(JSON.stringify(x)) = x` for the plain records the
registry stores. -/
inductive R2Obj where
  | archive (data : List Nat)
  | metaObj (m : PackageMetadata)
  | indexObj (i : PackageIndex)
deriving DecidableEq

def R2Bucket : Type := String → Option R2Obj

def bucketPut (b : R2Bucket) (k : String) (v : R2Obj) : R2Bucket :=
  fun x => if x = k then some v else b x

def bucketDelete (b : R2Bucket) (k : String) : R2Bucket :=
  fun x => if x = k then none else b x

def emptyBucket : R2Bucket := fun _ => none

/-! ## Storage layer (from `src/utils/storage.ts`) -/
/-- `packages/@${scope}/${packageName}/${version}/package.tar.gz` -/
def buildPackageKey (scope packageName version : String) : String :=
  "packages/@" ++ scope ++ "/" ++ packageName ++ "/" ++ version ++ "/package.tar.gz"

/-- `packages/@${scope}/${packageName}/${version}/metadata.json` -/
def buildMetadataKey (scope packageName version : String) : String :=
  "packages/@" ++ scope ++ "/" ++ packageName ++ "/" ++ version ++ "/metadata.json"

/-- `packages/@${scope}/${packageName}/index.json` -/
def buildIndexKey (scope packageName : String) : String :=
  "packages/@" ++ scope ++ "/" ++ packageName ++ "/index.json"

/-- `packageVersionExists`: HEAD probe on the archive key. -/
def packageVersionExists (b : R2Bucket) (scope packageName version : String) : Bool :=
  (b (buildPackageKey scope packageName version)).isSome

def storePackage (b : R2Bucket) (scope packageName version : String)
    (data : List Nat) : R2Bucket :=
  bucketPut b (buildPackageKey scope packageName version) (.archive data)

def storeMetadata (b : R2Bucket) (scope packageName version : String)
    (m : PackageMetadata) : R2Bucket :=
  bucketPut b (buildMetadataKey scope packageName version) (.metaObj m)

/-- `getIndex`: fetch and parse the index document.  Objects stored under
index keys are always index documents (the three key shapes are pairwise
distinct), so a non-index object at the key is modelled as no index. -/
def getIndex (b : R2Bucket) (scope packageName : String) : Option PackageIndex :=
  match b (buildIndexKey scope packageName) with
  | some (.indexObj i) => some i
  | _ => none

/-- The version summary `updateIndex` pushes into the index. -/
def versionInfoOf (m : PackageMetadata) : VersionInfo :=
  ⟨m.version, m.integrity, m.size, m.uploadedAt, m.dependencies⟩

def indexEntryCompare (a b : VersionInfo) : Option Int :=
  indexSortCompare a.version b.version

/-- The index document `updateIndex` computes before storing it: read (or
freshly create) the index; if the version is not already present, push its
summary and re-sort with the inline comparator. -/
def updateIndexResult (b : R2Bucket) (scope packageName : String)
    (m : PackageMetadata) : PackageIndex :=
  let fullPackageName := "@" ++ scope ++ "/" ++ packageName
  let index : PackageIndex :=
    match b (buildIndexKey scope packageName) with
    | some (.indexObj i) => i
    | _ => ⟨fullPackageName, []⟩
  if index.versions.any (fun v => v.version = m.version) then index
  else ⟨index.name, jsSort indexEntryCompare (index.versions ++ [versionInfoOf m])⟩

/-- `updateIndex`: store the recomputed index document back under the
index key. -/
def updateIndex (b : R2Bucket) (scope packageName : String)
    (m : PackageMetadata) : R2Bucket :=
  bucketPut b (buildIndexKey scope packageName) (.indexObj (updateIndexResult b scope packageName m))

/-- From `src/utils/validation.ts`: `findLatestVersion` — a `reduce` over
`compareVersions` seeded with the first element, `null` on the empty list. -/
def findLatestVersion (versions : List VersionInfo) : Option VersionInfo :=
  match versions with
  | [] => none
  | v :: rest =>
    some (rest.foldl
      (fun latest current =>
        if 0 < compareVersions current.version latest.version then current else latest)
      v)

/-- `getVersionList`: the index's version list together with
`findLatestVersion` of it; `null` when there is no index. -/
def getVersionList (b : R2Bucket) (scope packageName : String) :
    Option (List VersionInfo × Option VersionInfo) :=
  match getIndex b scope packageName with
  | none => none
  | some index => some (index.versions, findLatestVersion index.versions)

/-- `deletePackageVersion`: throws when the archive probe misses;
otherwise deletes archive and metadata, filters the version out of the
index, and deletes the whole index document when the remaining list is
empty. -/
def deletePackageVersion (b : R2Bucket) (scope packageName version : String) :
    Except String R2Bucket :=
  if ¬ packageVersionExists b scope packageName version then
    .error ("Version " ++ version ++ " of package @" ++ scope ++ "/" ++ packageName
      ++ " does not exist")
  else
    let b1 := bucketDelete b (buildPackageKey scope packageName version)
    let b2 := bucketDelete b1 (buildMetadataKey scope packageName version)
    match getIndex b2 scope packageName with
    | none => .ok b2
    | some index =>
      let remaining := index.versions.filter (fun v => v.version ≠ version)
      if remaining.isEmpty then .ok (bucketDelete b2 (buildIndexKey scope packageName))
      else .ok (bucketPut b2 (buildIndexKey scope packageName)
        (.indexObj ⟨index.name, remaining⟩))

/-! ## Permission store (from `src/utils/permissions.ts`)

The `PERMISSIONS` KV namespace is modelled as a map from key strings to
already-parsed permission arrays (`getUserPermissions` returns `[]` both
for a missing key and for unparseable/non-array JSON, so the oracle's
`none` covers both). -/
def getUserPermissions (perms : String → Option (List String)) (userId : Nat) :
    List String :=
  (perms (toString userId)).getD []

def hasPermission (perms : String → Option (List String)) (userId : Nat)
    (permission : String) : Bool :=
  (getUserPermissions perms userId).contains permission

def isAdmin (perms : String → Option (List String)) (userId : Nat) : Bool :=
  hasPermission perms userId "admin"

/-! ## Rate limiter (from `src/durable-objects/RateLimiter.ts`)

One durable-object state per client key; timestamps in milliseconds. -/
def UPLOAD_LIMIT : Nat := 10

def WINDOW_MS : Nat := 60 * 60 * 1000

structure RateLimitData where
  count : Nat
  resetAt : Nat
deriving DecidableEq

/-- Durable-object storage: the `"rateLimit"` entry and the scheduled
alarm. -/
structure RateLimiterState where
  data : Option RateLimitData
  alarm : Option Nat
deriving DecidableEq

structure RateCheckResult where
  allowed : Bool
  remaining : Int
  resetAt : Nat
deriving DecidableEq

/-- `RateLimiter.checkLimit()` at time `now`. -/
def checkLimit (now : Nat) (st : RateLimiterState) : RateCheckResult :=
  match st.data with
  | none => ⟨true, (UPLOAD_LIMIT : Int) - 1, now + WINDOW_MS⟩
  | some d =>
    if now ≥ d.resetAt then ⟨true, (UPLOAD_LIMIT : Int) - 1, now + WINDOW_MS⟩
    else ⟨decide (d.count < UPLOAD_LIMIT), max 0 ((UPLOAD_LIMIT : Int) - d.count), d.resetAt⟩

/-- `RateLimiter.increment()` at time `now`: a fresh or expired window is
replaced by `{count := 1}` with a cleanup alarm one second after the reset;
otherwise the count is incremented in place. -/
def rateIncrement (now : Nat) (st : RateLimiterState) : RateLimiterState :=
  match st.data with
  | none => ⟨some ⟨1, now + WINDOW_MS⟩, some (now + WINDOW_MS + 1000)⟩
  | some d =>
    if now ≥ d.resetAt then ⟨some ⟨1, now + WINDOW_MS⟩, some (now + WINDOW_MS + 1000)⟩
    else ⟨some ⟨d.count + 1, d.resetAt⟩, st.alarm⟩

/-- `RateLimiter.reset()`. -/
def rateReset (_st : RateLimiterState) : RateLimiterState := ⟨none, none⟩

/-- A sequence of `increment()` calls at the given times. -/
def incrementAll (ts : List Nat) (st : RateLimiterState) : RateLimiterState :=
  ts.foldl (fun s t => rateIncrement t s) st

/-! ## Scope authorization (from `src/utils/endpoint-permissions.ts`) -/
/-- `AuthenticatedIdentity`: tagged variant, `user` (OAuth/PAT) or
`installation` (GITHUB_TOKEN), as resolved in `src/utils/github.ts`. -/
inductive AuthenticatedIdentity where
  | user (scope : String) (userId : Nat) (displayName : String)
  | installation (scope : String) (repositories : List String)
deriving DecidableEq

def AuthenticatedIdentity.scope : AuthenticatedIdentity → String
  | .user s _ _ => s
  | .installation s _ => s

/-- Result of `validateOrgMembership` (an external GitHub lookup,
modelled as an oracle of `(token, username, orgName)`). -/
structure OrgCheckResult where
  isAdmin : Bool
  error : Option String
deriving DecidableEq

/-- A 403 denial body: status code and `error` code. -/
structure PermissionDenial where
  status : Nat
  error : String
deriving DecidableEq

/-- `checkPermissions(c, identity, scope, token)`.  Returns
`(none, _)` for "allow" (the source returns `undefined`), and a denial
response otherwise; the second component records whether
`validateOrgMembership` was invoked.

Order of checks, as in the source: (1) global-admin bypass for `user`
identities with a truthy `userId`; (2) identity scope equal to the
normalized target scope; (3) for `user` identities, the organization
membership lookup; (4) `installation` identities are denied for any other
scope.  (The source's unreachable trailing fallback needs no arm: the
tagged variant is exhaustive.) -/
def checkPermissions (isAdminOracle : Nat → Bool)
    (orgOracle : String → String → String → OrgCheckResult)
    (identity : AuthenticatedIdentity) (scope token : String) :
    Option PermissionDenial × Bool :=
  let normalizedScope := normalizeScope scope
  if (match identity with
      | .user _ userId _ => decide (userId ≠ 0) && isAdminOracle userId
      | .installation _ _ => false)
  then (none, false)
  else if identity.scope = normalizedScope then (none, false)
  else match identity with
    | .user _ _ _ =>
      let orgCheck := orgOracle token identity.scope normalizedScope
      if orgCheck.error = some "insufficient_permissions" then
        (some ⟨403, "insufficient_permissions"⟩, true)
      else if ¬ orgCheck.isAdmin then (some ⟨403, "forbidden"⟩, true)
      else (none, true)
    | .installation _ _ => (some ⟨403, "installation_scope_mismatch"⟩, false)

/-! ## Request validation (from `src/utils/validation.ts`) -/
/-- The character class `[a-zA-Z0-9-]` of `PACKAGE_NAME_REGEX`. -/
def isNameChar (c : Char) : Bool := c.isAlphanum ∨ c = '-'

def MAX_PACKAGE_NAME_LENGTH : Nat := 214

/-- `validatePackageName`: length at most 214 and matching
`^@([a-zA-Z0-9-]+)\/([a-zA-Z0-9-]+)$`; returns the two capture groups.
(The class excludes `/`, so the match splits at the sole `/`.) -/
def validatePackageName (name : String) : Option (String × String) :=
  if MAX_PACKAGE_NAME_LENGTH < name.length then none
  else
    match name.data with
    | '@' :: rest =>
      let scopeChars := rest.takeWhile (fun c => c ≠ '/')
      match rest.dropWhile (fun c => c ≠ '/') with
      | '/' :: pkgChars =>
        if scopeChars ≠ [] ∧ scopeChars.all isNameChar
            ∧ pkgChars ≠ [] ∧ pkgChars.all isNameChar
        then some (⟨scopeChars⟩, ⟨pkgChars⟩) else none
      | _ => none
    | _ => none

/-- The character class `[a-zA-Z0-9.-]` of the suffix groups of
`VERSION_REGEX`. -/
def isVerSuffixChar (c : Char) : Bool := c.isAlphanum ∨ c = '.' ∨ c = '-'

def chompDigits (cs : List Char) : Option (List Char) :=
  if (cs.takeWhile Char.isDigit).isEmpty then none
  else some (cs.dropWhile Char.isDigit)

def chompChar (c : Char) (cs : List Char) : Option (List Char) :=
  match cs with
  | x :: r => if x = c then some r else none
  | [] => none

/-- `validateVersion`: matching
`^\d+\.\d+\.\d+(-[a-zA-Z0-9.-]+)?(\+[a-zA-Z0-9.-]+)?$`.
Both optional groups start with a character outside the other classes, so
the regex is matched deterministically group by group. -/
def validateVersion (version : String) : Bool :=
  (do
    let r ← chompDigits version.data
    let r ← chompChar '.' r
    let r ← chompDigits r
    let r ← chompChar '.' r
    let r ← chompDigits r
    let r ← (match r with
      | '-' :: rest =>
        if (rest.takeWhile isVerSuffixChar).isEmpty then none
        else some (rest.dropWhile isVerSuffixChar)
      | _ => some r)
    let r ← (match r with
      | '+' :: rest =>
        if (rest.takeWhile isVerSuffixChar).isEmpty then none
        else some (rest.dropWhile isVerSuffixChar)
      | _ => some r)
    if r.isEmpty then some () else none).isSome

def MAX_FILE_SIZE : Nat := 50 * 1024 * 1024

/-- `validateFileSize(size)`: rejects `size > MAX_FILE_SIZE` and
`size === 0`.  `size` is `parseInt(...)`, so it can be `NaN` (`none`),
which passes both comparisons and is accepted. -/
def validateFileSize (size : Option Int) : Bool :=
  match size with
  | none => true
  | some n => ¬ (MAX_FILE_SIZE < n) ∧ n ≠ 0

/-- `buildPackageName(scope, packageName)` = `@${scope}/${packageName}`. -/
def buildPackageName (scope packageName : String) : String :=
  "@" ++ scope ++ "/" ++ packageName

/-- JS `parseInt(s, 10)`: skip leading whitespace, optional sign, a run of
decimal digits; `NaN` (`none`) when no digits follow. -/
def jsParseInt (s : String) : Option Int :=
  let cs := s.data.dropWhile Char.isWhitespace
  let signAndRest : Int × List Char :=
    match cs with
    | '-' :: r => (-1, r)
    | '+' :: r => (1, r)
    | _ => (1, cs)
  let ds := signAndRest.2.takeWhile Char.isDigit
  if ds.isEmpty then none else some (signAndRest.1 * digitsToNat ds)

/-- `extractBearerToken`: the `/^Bearer\s+(.+)$/i` match.  After a
case-insensitive `Bearer` and at least one whitespace character the
capture takes the non-empty remainder; when only whitespace remains, the
regex backtracks and captures the final whitespace character.  (Header
values contain no newline characters, so `.` and `$` subtleties do not
arise.) -/
def extractBearerToken (authHeader : Option String) : Option String :=
  match authHeader with
  | none => none
  | some s =>
    let cs := s.data
    if (cs.take 6).map jsToLowerChar = "bearer".data then
      let tail := cs.drop 6
      let w := tail.takeWhile Char.isWhitespace
      let rest := tail.dropWhile Char.isWhitespace
      if w.isEmpty then none
      else if rest.isEmpty then
        if 2 ≤ w.length then some ⟨w.drop (w.length - 1)⟩ else none
      else some ⟨rest⟩
    else none

/-! ## Package parser (from `src/utils/package-parser.ts`)

`unzipSync` (gzip/zip decompression) and `JSON.parse` are external library
calls, modelled as oracles: the unzip result is a list of
`(path, decoded content)` entries in `Object.entries` order (`.error` when
`unzipSync` throws), and `parseJson` parses a decoded `qll.info` body. -/
/-- A `qll.info` dependency entry: a string, an object with truthy-checked
`name`/`version` fields (JS truthiness: the empty string is falsy), or any
other value (matches neither `typeof` shape and is skipped with a
warning). -/
inductive DependencyEntry where
  | str (s : String)
  | obj (name : String) (version : String)
  | other
deriving DecidableEq

/-- The parsed `qll.info` fields `extractDependencies` reads;
`dependencies` is `none` when the field is absent or not an array. -/
structure QllInfo where
  name : String
  version : String
  dependencies : Option (List DependencyEntry)
deriving DecidableEq

/-- JS object property assignment `record[k] = v`: overwrite in place if
the key exists (keeping its position), else append. -/
def recordSet (r : List (String × String)) (k v : String) : List (String × String) :=
  if r.any (fun p => p.1 = k) then r.map (fun p => if p.1 = k then (k, v) else p)
  else r ++ [(k, v)]

/-- `extractDependencies(packageData)`: find the first entry whose
lowercased path ends in `qll.info`, parse it, and fold the dependency
array; string entries split at the first colon into
`version:packageName` (skipped when there is no colon), object entries
need truthy `name` and `version`.  Throws (`.error`) when unzip fails,
when no `qll.info` is found, or when parsing fails — each wrapped with
`"Failed to extract dependencies from package: "`. -/
def extractDependencies (unzipped : Except String (List (String × String)))
    (parseJson : String → Except String QllInfo) :
    Except String (List (String × String)) :=
  match unzipped with
  | .error e => .error ("Failed to extract dependencies from package: " ++ e)
  | .ok entries =>
    match entries.find? (fun p => "qll.info".data.isSuffixOf (jsToLowerCase p.1).data) with
    | none => .error ("Failed to extract dependencies from package: "
        ++ "qll.info not found in package. Valid .qll packages must contain a qll.info file.")
    | some entry =>
      match parseJson entry.2 with
      | .error e => .error ("Failed to extract dependencies from package: " ++ e)
      | .ok info =>
        match info.dependencies with
        | none => .ok []
        | some deps =>
          .ok (deps.foldl
            (fun acc dep =>
              match dep with
              | .str s =>
                match s.data.findIdx? (fun c => c = ':') with
                | none => acc
                | some i => recordSet acc ⟨s.data.drop (i + 1)⟩ ⟨s.data.take i⟩
              | .obj n v => if n ≠ "" ∧ v ≠ "" then recordSet acc n v else acc
              | .other => acc)
            [])

/-! ## Upload pipeline (`PackageUpload.handle`) -/
/-- The request-derived inputs of `PackageUpload.handle`: path parameters,
the `CF-Connecting-IP` and `Authorization`/`Content-Length` headers, and
the body read (`.error` when `c.req.arrayBuffer()` rejects or is
unavailable). -/
structure UploadRequest where
  scope : String
  packageName : String
  version : String
  ip : Option String
  authHeader : Option String
  contentLength : Option String
  body : Except Unit (List Nat)

/-- The environment of external collaborators: GitHub token resolution
(`validateGitHubToken`, cache included), the `PERMISSIONS` KV namespace,
`unzipSync`, `JSON.parse` of `qll.info`, SHA-256 integrity
(`computeIntegrity`), and the current time. -/
structure UploadEnv where
  userOf : String → Option GitHubUser
  perms : String → Option (List String)
  unzip : List Nat → Except String (List (String × String))
  parseJson : String → Except String QllInfo
  integrityOf : List Nat → String
  now : Nat
  nowIso : String

structure UploadResult where
  status : Nat
  error : Option String
deriving DecidableEq

structure UploadOutcome where
  result : UploadResult
  bucket : R2Bucket
  rate : String → RateLimiterState

/-- `PackageUpload.handle`, step by step as in the source: IP (400) →
bearer token (401) → GitHub validation (401) → package-name format (403) →
admin-or-scope-equals-login (403, raw string comparison `scope !==
user.login`) → version format (403) → existence probe (409) → rate check
(429) → `parseInt(Content-Length || "0")` size check (413) → body read
(400) → integrity → `storePackage` → best-effort `extractDependencies`
(caught, empty map on failure; `validateDependencies` is log-only) →
`storeMetadata` → `updateIndex` (best-effort) → rate increment → 201.
R2 put failures (the 500 branches) are external faults, not modelled. -/
def packageUploadHandle (env : UploadEnv) (req : UploadRequest) (bucket : R2Bucket)
    (rate : String → RateLimiterState) : UploadOutcome :=
  match req.ip with
  | none => ⟨⟨400, some "bad_request"⟩, bucket, rate⟩
  | some ip =>
    match extractBearerToken req.authHeader with
    | none => ⟨⟨401, some "unauthorized"⟩, bucket, rate⟩
    | some token =>
      match env.userOf token with
      | none => ⟨⟨401, some "unauthorized"⟩, bucket, rate⟩
      | some user =>
        match validatePackageName (buildPackageName req.scope req.packageName) with
        | none => ⟨⟨403, some "invalid_package_name"⟩, bucket, rate⟩
        | some _ =>
          if ¬ isAdmin env.perms user.id ∧ req.scope ≠ user.login then
            ⟨⟨403, some "forbidden"⟩, bucket, rate⟩
          else if ¬ validateVersion req.version then
            ⟨⟨403, some "invalid_version"⟩, bucket, rate⟩
          else if packageVersionExists bucket req.scope req.packageName req.version then
            ⟨⟨409, some "version_exists"⟩, bucket, rate⟩
          else if ¬ (checkLimit env.now (rate ip)).allowed then
            ⟨⟨429, some "rate_limit_exceeded"⟩, bucket, rate⟩
          else if ¬ validateFileSize (jsParseInt (req.contentLength.getD "0")) then
            ⟨⟨413, some "payload_too_large"⟩, bucket, rate⟩
          else
            match req.body with
            | .error _ => ⟨⟨400, some "invalid_request"⟩, bucket, rate⟩
            | .ok packageData =>
              let integrity := env.integrityOf packageData
              let bucket1 := storePackage bucket req.scope req.packageName req.version
                packageData
              let dependencies :=
                match extractDependencies (env.unzip packageData) env.parseJson with
                | .ok d => d
                | .error _ => []
              let metadata : PackageMetadata :=
                ⟨buildPackageName req.scope req.packageName, req.version, integrity,
                  packageData.length, env.nowIso, user.login, dependencies⟩
              let bucket2 := storeMetadata bucket1 req.scope req.packageName req.version
                metadata
              let bucket3 := updateIndex bucket2 req.scope req.packageName metadata
              let rate2 := fun k => if k = ip then rateIncrement env.now (rate ip) else rate k
              ⟨⟨201, none⟩, bucket3, rate2⟩

/-! ## Version list endpoint (`PackageList.handle`) -/
structure ListQueryResult where
  status : Nat
  error : Option String
deriving DecidableEq

/-- `PackageList.handle`: normalize the scope, fetch the version list, 404
when the package has no index. -/
def packageListHandle (bucket : R2Bucket) (rawScope packageName : String) :
    ListQueryResult :=
  let scope := normalizeScope rawScope
  match getVersionList bucket scope packageName with
  | none => ⟨404, some "not_found"⟩
  | some _ => ⟨200, none⟩

/-! ## The upload pipeline's two interesting runs -/
/-- The metadata document the pipeline builds for a successful upload. -/
def uploadMetadata (env : UploadEnv) (req : UploadRequest) (user : GitHubUser)
    (data : List Nat) : PackageMetadata :=
  ⟨buildPackageName req.scope req.packageName, req.version, env.integrityOf data,
    data.length, env.nowIso, user.login,
    (match extractDependencies (env.unzip data) env.parseJson with
      | .ok d => d
      | .error _ => [])⟩

/-! ## Concrete inputs used by witnesses and counterexamples -/
/-- An environment whose token `"tok"` resolves to non-admin user
`alice`. -/
def envAlice : UploadEnv :=
  { userOf := fun t => if t = "tok" then some ⟨"alice", 1⟩ else none
  , perms := fun _ => none
  , unzip := fun _ => .error "not a zip"
  , parseJson := fun _ => .error "bad json"
  , integrityOf := fun _ => "sha256-deadbeef"
  , now := 0
  , nowIso := "2026-01-01T00:00:00Z" }

/-- An environment whose token `"tok"` resolves to user `carol` (id 7) who
holds the `admin` permission and may therefore upload to any scope. -/
def envCarolAdmin : UploadEnv :=
  { userOf := fun t => if t = "tok" then some ⟨"carol", 7⟩ else none
  , perms := fun k => if k = "7" then some ["admin"] else none
  , unzip := fun _ => .error "not a zip"
  , parseJson := fun _ => .error "bad json"
  , integrityOf := fun _ => "sha256-deadbeef"
  , now := 0
  , nowIso := "2026-01-01T00:00:00Z" }

def reqAliceLower : UploadRequest :=
  { scope := "alice", packageName := "postgres", version := "1.0.0"
  , ip := some "203.0.113.7", authHeader := some "Bearer tok"
  , contentLength := some "3", body := .ok [1, 2, 3] }

def reqAliceUpper : UploadRequest :=
  { scope := "Alice", packageName := "postgres", version := "1.0.0"
  , ip := some "203.0.113.7", authHeader := some "Bearer tok"
  , contentLength := some "3", body := .ok [1, 2, 3] }

def rateFresh : String → RateLimiterState := fun _ => ⟨none, none⟩

/-! ## Version triples: definitions for C5/C6

`numericTriple v` holds when the first three dot-separated components of
`v` are non-empty decimal digit runs (in particular no pre-release/build
suffix reaches them); this is the regime in which both comparators behave
numerically. -/
def numericTriple (v : String) : Bool :=
  match splitOnDot v.data with
  | g0 :: g1 :: g2 :: _ =>
    (!g0.isEmpty && g0.all Char.isDigit) && (!g1.isEmpty && g1.all Char.isDigit)
      && (!g2.isEmpty && g2.all Char.isDigit)
  | _ => false

def jsCompVal : JsComp → Int
  | .num (.int x) => x
  | _ => 0

def tripleOfComps (l : List JsNum) : Int × Int × Int :=
  (jsCompVal (compAt l 0), jsCompVal (compAt l 1), jsCompVal (compAt l 2))

/-- The `(major, minor, patch)` tuple as the `updateIndex` comparator
parses it (no suffix stripping). -/
def tripleKey (v : String) : Int × Int × Int :=
  tripleOfComps (versionComps v.data)

/-- The `(major, minor, patch)` tuple as the spec's sort rule (and
`compareVersions`) computes it: pre-release/build suffix stripped first. -/
def specTriple (v : String) : Int × Int × Int :=
  tripleOfComps (versionComps (headBeforeDashPlus v.data))

def lexGE (x y : Int × Int × Int) : Prop :=
  y.1 < x.1 ∨ (x.1 = y.1 ∧ (y.2.1 < x.2.1 ∨ (x.2.1 = y.2.1 ∧ y.2.2 ≤ x.2.2)))

def lexGT (x y : Int × Int × Int) : Prop :=
  y.1 < x.1 ∨ (x.1 = y.1 ∧ (y.2.1 < x.2.1 ∨ (x.2.1 = y.2.1 ∧ y.2.2 < x.2.2)))

instance (x y : Int × Int × Int) : Decidable (lexGE x y) := by
  unfold lexGE
  infer_instance

instance (x y : Int × Int × Int) : Decidable (lexGT x y) := by
  unfold lexGT
  infer_instance

/-- Inverse of `splitOnDot`: re-join groups with dots. -/
def joinDots : List (List Char) → List Char
  | [] => []
  | [g] => g
  | g :: gs => g ++ '.' :: joinDots gs

/-! ### Sortedness of the stored index -/
def entryKeyGE (a b : VersionInfo) : Prop :=
  lexGE (tripleKey a.version) (tripleKey b.version)

instance (a b : VersionInfo) : Decidable (entryKeyGE a b) := by
  unfold entryKeyGE
  infer_instance

/-- Invariant of a bucket's stored index for one package: every stored
version has a numeric triple and the list is sorted non-increasingly by
that triple. -/
def IndexInv (scope packageName : String) (b : R2Bucket) : Prop :=
  ∀ idx, getIndex b scope packageName = some idx →
    (∀ z ∈ idx.versions, numericTriple z.version = true)
    ∧ idx.versions.Pairwise entryKeyGE

/-! ## C5 — index order: descending by numeric triple -/
def mAlpha : PackageMetadata :=
  ⟨"@alice/pkg", "1.0.0-alpha", "sha256-a", 1, "t1", "alice", []⟩

def mPatch : PackageMetadata :=
  ⟨"@alice/pkg", "1.0.1", "sha256-b", 2, "t2", "alice", []⟩

def mTwo : PackageMetadata :=
  ⟨"@alice/pkg", "2.0.0", "sha256-c", 3, "t3", "alice", []⟩

def mOne : PackageMetadata :=
  ⟨"@alice/pkg", "1.0.0", "sha256-d", 4, "t4", "alice", []⟩

/-! # Theorems -/

/-! ### Facts about `jsToLowerChar` -/
theorem ofNat_toNat_valid {n : Nat} (h : n.isValidChar) : (Char.ofNat n).toNat = n := by
  simp only [Char.ofNat, dif_pos h]
  rfl

theorem jsToLowerChar_val_of_upper {c : Char} (h : 65 ≤ c.toNat ∧ c.toNat ≤ 90) :
    (jsToLowerChar c).toNat = c.toNat + 32 := by
  have hvalid : (c.toNat + 32).isValidChar := by
    unfold Nat.isValidChar
    left
    omega
  simp only [jsToLowerChar, if_pos h]
  exact ofNat_toNat_valid hvalid

theorem jsToLowerChar_idem (c : Char) :
    jsToLowerChar (jsToLowerChar c) = jsToLowerChar c := by
  by_cases h : 65 ≤ c.toNat ∧ c.toNat ≤ 90
  · have hval : (jsToLowerChar c).toNat = c.toNat + 32 := jsToLowerChar_val_of_upper h
    have hn : ¬ (65 ≤ (jsToLowerChar c).toNat ∧ (jsToLowerChar c).toNat ≤ 90) := by omega
    conv_lhs => rw [jsToLowerChar]
    rw [if_neg hn]
  · simp only [jsToLowerChar, if_neg h]

theorem jsToLowerChar_at_ne (c : Char) (h : c ≠ '@') : jsToLowerChar c ≠ '@' := by
  by_cases hu : 65 ≤ c.toNat ∧ c.toNat ≤ 90
  · intro hcon
    have hval := jsToLowerChar_val_of_upper hu
    rw [hcon] at hval
    have : ('@' : Char).toNat = 64 := by decide
    omega
  · simpa [jsToLowerChar, if_neg hu] using h

theorem map_lower_idem (l : List Char) :
    (l.map jsToLowerChar).map jsToLowerChar = l.map jsToLowerChar := by
  simp [List.map_map, Function.comp_def, jsToLowerChar_idem]

theorem lower_at_char : jsToLowerChar '@' = '@' := by decide

/-! ### Behaviour of `normalizeScope` -/
theorem normalizeScope_at {s : String} {rest : List Char} (h : s.data = '@' :: rest) :
    normalizeScope s = ⟨rest.map jsToLowerChar⟩ := by
  unfold normalizeScope
  split
  · rename_i heq
    rw [h] at heq
    injection heq with h1 h2
    rw [h2]
  · rename_i hno
    exact absurd h (hno rest)

theorem normalizeScope_of_head_ne {s : String} (h : ∀ t, s.data ≠ '@' :: t) :
    normalizeScope s = ⟨s.data.map jsToLowerChar⟩ := by
  unfold normalizeScope
  split
  · rename_i heq
    exact absurd heq (h _)
  · rfl

theorem map_lower_head_ne {l : List Char} (hl : ∀ t, l ≠ '@' :: t) :
    ∀ t, (l.map jsToLowerChar) ≠ '@' :: t := by
  intro t hcon
  cases l with
  | nil => simp at hcon
  | cons c r =>
    rw [List.map_cons] at hcon
    injection hcon with h1 h2
    by_cases hc : c = '@'
    · exact hl r (by rw [hc])
    · exact jsToLowerChar_at_ne c hc h1

/-- The C8 claim states `normalizeScope` is idempotent for **every** string;
that fails for strings beginning with two `@` signs: `normalizeScope`
strips only one `@`, so its result can itself begin with `@` and be
stripped again on a second application. -/
theorem C8_counterexample :
    normalizeScope (normalizeScope "@@A") ≠ normalizeScope "@@A" := by decide

/-- C8 (amended): `normalizeScope` is idempotent for every string that does
not begin with `"@@"`; `normalizeScope "@Alice" = normalizeScope "alice" =
"alice"`; normalization is case-insensitive (`normalizeScope ∘ toLowerCase
= normalizeScope`); and a string and its `@`-prefixed form normalize
identically whenever the string does not itself begin with `@`. -/
theorem C8_normalizeScope_amended :
    (∀ s : String, ¬ (['@', '@'] <+: s.data) →
      normalizeScope (normalizeScope s) = normalizeScope s)
    ∧ normalizeScope "@Alice" = "alice"
    ∧ normalizeScope "alice" = "alice"
    ∧ (∀ s : String, normalizeScope (jsToLowerCase s) = normalizeScope s)
    ∧ (∀ s : String, ¬ (['@'] <+: s.data) →
      normalizeScope ("@" ++ s) = normalizeScope s) := by
  refine ⟨?_, by decide, by decide, ?_, ?_⟩
  · intro s hs
    rcases hm : s.data with _ | ⟨c, rest⟩
    · have h1 : normalizeScope s = ⟨[]⟩ := by
        rw [normalizeScope_of_head_ne (by intro t hcon; rw [hm] at hcon; cases hcon), hm]
        rfl
      rw [h1]
      rfl
    · by_cases hc : c = '@'
      · subst hc
        have hrest : ∀ t, rest ≠ '@' :: t := by
          intro t hcon
          exact hs (by rw [hm, hcon]; exact ⟨t, rfl⟩)
        rw [normalizeScope_at hm]
        rw [normalizeScope_of_head_ne (s := ⟨rest.map jsToLowerChar⟩)
          (map_lower_head_ne hrest)]
        exact congrArg String.mk (map_lower_idem rest)
      · have hhead : ∀ t, s.data ≠ '@' :: t := by
          intro t hcon
          rw [hm] at hcon
          injection hcon with h1 _
          exact hc h1
        rw [normalizeScope_of_head_ne hhead]
        rw [normalizeScope_of_head_ne (s := ⟨s.data.map jsToLowerChar⟩)
          (map_lower_head_ne hhead)]
        exact congrArg String.mk (map_lower_idem s.data)
  · intro s
    rcases hm : s.data with _ | ⟨c, rest⟩
    · have h1 : jsToLowerCase s = ⟨[]⟩ := by
        unfold jsToLowerCase
        rw [hm]
        rfl
      have h2 : normalizeScope s = ⟨[]⟩ := by
        rw [normalizeScope_of_head_ne (by intro t hcon; rw [hm] at hcon; cases hcon), hm]
        rfl
      rw [h1, h2]
      rfl
    · by_cases hc : c = '@'
      · subst hc
        have hlow : (jsToLowerCase s).data = '@' :: rest.map jsToLowerChar := by
          show (s.data.map jsToLowerChar) = _
          rw [hm, List.map_cons, lower_at_char]
        rw [normalizeScope_at hlow, normalizeScope_at hm]
        exact congrArg String.mk (map_lower_idem rest)
      · have hhead : ∀ t, s.data ≠ '@' :: t := by
          intro t hcon
          rw [hm] at hcon
          injection hcon with h1 _
          exact hc h1
        have hlowhead : ∀ t, (jsToLowerCase s).data ≠ '@' :: t :=
          map_lower_head_ne hhead
        rw [normalizeScope_of_head_ne hlowhead, normalizeScope_of_head_ne hhead]
        exact congrArg String.mk (map_lower_idem s.data)
  · intro s hs
    have hdata : ("@" ++ s).data = '@' :: s.data := by
      cases s
      rfl
    have hhead : ∀ t, s.data ≠ '@' :: t := by
      intro t hcon
      exact hs (by rw [hcon]; exact ⟨t, rfl⟩)
    rw [normalizeScope_at hdata, normalizeScope_of_head_ne hhead]

/-- Witness for C8 (amended) at concrete inputs. -/
theorem C8_normalizeScope_amended_witness :
    (¬ (['@', '@'] <+: "@Alice".data))
    ∧ normalizeScope (normalizeScope "@Alice") = normalizeScope "@Alice"
    ∧ (¬ (['@'] <+: "alice".data))
    ∧ normalizeScope ("@" ++ "alice") = normalizeScope "alice" :=
  ⟨by decide, C8_normalizeScope_amended.1 "@Alice" (by decide), by decide,
    C8_normalizeScope_amended.2.2.2.2 "alice" (by decide)⟩

/-! ## Basic lemmas: buckets, string keys, sort membership -/
theorem bucketPut_self (b : R2Bucket) (k : String) (v : R2Obj) :
    bucketPut b k v k = some v := by
  simp [bucketPut]

theorem bucketPut_ne (b : R2Bucket) (k x : String) (v : R2Obj) (h : x ≠ k) :
    bucketPut b k v x = b x := by
  simp [bucketPut, h]

theorem bucketPut_idem (b : R2Bucket) (k : String) (v : R2Obj) :
    bucketPut (bucketPut b k v) k v = bucketPut b k v := by
  funext x
  by_cases h : x = k <;> simp [bucketPut, h]

theorem strData_append (a b : String) : (a ++ b).data = a.data ++ b.data := by
  cases a
  cases b
  rfl

theorem strOfEqData {a b : String} (h : a.data = b.data) : a = b := by
  cases a
  cases b
  exact congrArg String.mk h

theorem metadataKey_ne_packageKey (scope packageName version : String) :
    buildMetadataKey scope packageName version ≠ buildPackageKey scope packageName version := by
  intro h
  have hd := congrArg String.data h
  simp only [buildMetadataKey, buildPackageKey, strData_append, List.append_assoc] at hd
  have h1 := List.append_cancel_left hd
  have h2 := List.append_cancel_left h1
  have h3 := List.append_cancel_left h2
  have h4 := List.append_cancel_left h3
  have h5 := List.append_cancel_left h4
  have h6 := List.append_cancel_left h5
  exact absurd h6 (by decide)

theorem indexKey_ne_packageKey (scope packageName version : String) :
    buildIndexKey scope packageName ≠ buildPackageKey scope packageName version := by
  intro h
  have hd := congrArg String.data h
  simp only [buildIndexKey, buildPackageKey, strData_append, List.append_assoc] at hd
  have h1 := List.append_cancel_left hd
  have h2 := List.append_cancel_left h1
  have h3 := List.append_cancel_left h2
  have h4 := List.append_cancel_left h3
  have hlen := congrArg List.length h4
  simp [List.length_append] at hlen

theorem indexKey_ne_metadataKey (scope packageName version : String) :
    buildIndexKey scope packageName ≠ buildMetadataKey scope packageName version := by
  intro h
  have hd := congrArg String.data h
  simp only [buildIndexKey, buildMetadataKey, strData_append, List.append_assoc] at hd
  have h1 := List.append_cancel_left hd
  have h2 := List.append_cancel_left h1
  have h3 := List.append_cancel_left h2
  have h4 := List.append_cancel_left h3
  have hlen := congrArg List.length h4
  simp [List.length_append] at hlen

theorem packageKey_inj_scope {s1 s2 : String} (packageName version : String)
    (h : buildPackageKey s1 packageName version = buildPackageKey s2 packageName version) :
    s1 = s2 := by
  have hd := congrArg String.data h
  simp only [buildPackageKey, strData_append, List.append_assoc] at hd
  have h1 := List.append_cancel_left hd
  have h2 := List.append_cancel_right h1
  exact strOfEqData h2

theorem mem_jsInsert {α : Type} (c : α → α → Option Int) (x y : α) (l : List α) :
    y ∈ jsInsert c x l ↔ y = x ∨ y ∈ l := by
  induction l with
  | nil => simp [jsInsert]
  | cons z zs ih =>
    unfold jsInsert
    by_cases h : jsCmpLe c x z = true
    · simp [h]
    · simp only [Bool.not_eq_true] at h
      simp [h, ih]
      tauto

theorem mem_jsSort {α : Type} (c : α → α → Option Int) (y : α) (l : List α) :
    y ∈ jsSort c l ↔ y ∈ l := by
  induction l with
  | nil => simp [jsSort]
  | cons z zs ih =>
    unfold jsSort
    rw [mem_jsInsert]
    simp [ih]

theorem getIndex_eq_some {b : R2Bucket} {scope packageName : String} {idx : PackageIndex} :
    getIndex b scope packageName = some idx
      ↔ b (buildIndexKey scope packageName) = some (.indexObj idx) := by
  unfold getIndex
  constructor
  · intro h
    split at h
    · rename_i i heq
      injection h with h1
      rw [heq, h1]
    · cases h
  · intro h
    rw [h]

theorem getIndex_updateIndex (b : R2Bucket) (scope packageName : String)
    (m : PackageMetadata) :
    getIndex (updateIndex b scope packageName m) scope packageName
      = some (updateIndexResult b scope packageName m) := by
  rw [getIndex_eq_some]
  unfold updateIndex
  exact bucketPut_self _ _ _

theorem updateIndexResult_has_version (b : R2Bucket) (scope packageName : String)
    (m : PackageMetadata) :
    (updateIndexResult b scope packageName m).versions.any
      (fun v => v.version = m.version) = true := by
  unfold updateIndexResult
  split <;>
  · dsimp only
    split
    · rename_i hany
      exact hany
    · simp only [List.any_eq_true]
      refine ⟨versionInfoOf m, ?_, by simp [versionInfoOf]⟩
      rw [mem_jsSort]
      simp

/-! ## C2 — installation identities are scope-locked -/
/-- C2: for every `installation` identity with own scope `s` and every
target scope whose normalization differs from `s`, `checkPermissions`
denies with a 403 `installation_scope_mismatch` response, and the
organization-membership lookup is never invoked (second component
`false`) — for every admin oracle and every membership oracle, i.e.
regardless of what any membership response would say. -/
theorem C2_installation_scope_locked :
    ∀ (isAdminOracle : Nat → Bool) (orgOracle : String → String → String → OrgCheckResult)
      (s : String) (repos : List String) (targetScope token : String),
      normalizeScope targetScope ≠ s →
      checkPermissions isAdminOracle orgOracle (.installation s repos) targetScope token
        = (some ⟨403, "installation_scope_mismatch"⟩, false) := by
  intro ia org s repos t tok hne
  unfold checkPermissions
  simp only [AuthenticatedIdentity.scope]
  rw [if_neg (by simp), if_neg (fun h => hne h.symm)]

/-- Witness for C2: an installation identity scoped to `"acme"`, a target
scope `"other"`, and a membership oracle that would grant admin — denied
anyway, membership never consulted. -/
theorem C2_installation_scope_locked_witness :
    normalizeScope "other" ≠ "acme"
    ∧ checkPermissions (fun _ => true) (fun _ _ _ => ⟨true, none⟩)
        (.installation "acme" ["acme/repo"]) "other" "tok"
      = (some ⟨403, "installation_scope_mismatch"⟩, false) :=
  ⟨by decide,
    C2_installation_scope_locked (fun _ => true) (fun _ _ _ => ⟨true, none⟩)
      "acme" ["acme/repo"] "other" "tok" (by decide)⟩

/-! ## C3 — rate limiter: fixed window of 10 per hour -/
theorem rateIncrement_live {t c resetAt : Nat} {alarm : Option Nat} (ht : t < resetAt) :
    rateIncrement t ⟨some ⟨c, resetAt⟩, alarm⟩ = ⟨some ⟨c + 1, resetAt⟩, alarm⟩ := by
  simp only [rateIncrement]
  rw [if_neg (show ¬ t ≥ resetAt by omega)]

theorem incrementAll_live (ts : List Nat) (c resetAt : Nat) (alarm : Option Nat)
    (h : ∀ t ∈ ts, t < resetAt) :
    incrementAll ts ⟨some ⟨c, resetAt⟩, alarm⟩ = ⟨some ⟨c + ts.length, resetAt⟩, alarm⟩ := by
  induction ts generalizing c with
  | nil => simp [incrementAll]
  | cons t ts ih =>
    have ht : t < resetAt := h t (by simp)
    show incrementAll ts (rateIncrement t ⟨some ⟨c, resetAt⟩, alarm⟩) = _
    rw [rateIncrement_live ht, ih (c + 1) (fun x hx => h x (by simp [hx]))]
    simp only [List.length_cons]
    rw [show c + 1 + ts.length = c + (ts.length + 1) from by omega]

/-- C3: `checkLimit` on a missing or expired window reports
`allowed = true, remaining = 9, resetAt = now + window`; on a live window
with count `c` it reports `allowed = (c < 10)`,
`remaining = max 0 (10 - c)` and the existing `resetAt`.  After exactly
10 increments inside one window the next `checkLimit` inside the window
returns `allowed = false, remaining = 0`, and once `resetAt` has elapsed
the next `checkLimit` returns `allowed = true` again. -/
theorem C3_rate_limiter :
    (∀ (now : Nat) (st : RateLimiterState), st.data = none →
      checkLimit now st = ⟨true, 9, now + WINDOW_MS⟩)
    ∧ (∀ (now : Nat) (st : RateLimiterState) (d : RateLimitData),
        st.data = some d → d.resetAt ≤ now →
        checkLimit now st = ⟨true, 9, now + WINDOW_MS⟩)
    ∧ (∀ (now : Nat) (st : RateLimiterState) (d : RateLimitData),
        st.data = some d → now < d.resetAt →
        checkLimit now st
          = ⟨decide (d.count < 10), max 0 ((10 : Int) - d.count), d.resetAt⟩)
    ∧ (∀ (t1 : Nat) (rest : List Nat) (alarm : Option Nat),
        rest.length = 9 → (∀ t ∈ rest, t < t1 + WINDOW_MS) →
        incrementAll (t1 :: rest) ⟨none, alarm⟩
          = ⟨some ⟨10, t1 + WINDOW_MS⟩, some (t1 + WINDOW_MS + 1000)⟩)
    ∧ (∀ (now t1 : Nat), now < t1 + WINDOW_MS →
        checkLimit now ⟨some ⟨10, t1 + WINDOW_MS⟩, some (t1 + WINDOW_MS + 1000)⟩
          = ⟨false, 0, t1 + WINDOW_MS⟩)
    ∧ (∀ (now t1 : Nat), t1 + WINDOW_MS ≤ now →
        checkLimit now ⟨some ⟨10, t1 + WINDOW_MS⟩, some (t1 + WINDOW_MS + 1000)⟩
          = ⟨true, 9, now + WINDOW_MS⟩) := by
  refine ⟨?_, ?_, ?_, ?_, ?_, ?_⟩
  · intro now st h
    simp only [checkLimit, h]
    norm_num [UPLOAD_LIMIT]
  · intro now st d h hexp
    simp only [checkLimit, h]
    rw [if_pos (by omega)]
    norm_num [UPLOAD_LIMIT]
  · intro now st d h hlive
    simp only [checkLimit, h]
    rw [if_neg (by omega)]
    norm_num [UPLOAD_LIMIT]
  · intro t1 rest alarm hlen hin
    show incrementAll rest (rateIncrement t1 ⟨none, alarm⟩) = _
    have hstep : rateIncrement t1 ⟨none, alarm⟩
        = ⟨some ⟨1, t1 + WINDOW_MS⟩, some (t1 + WINDOW_MS + 1000)⟩ := by
      simp [rateIncrement]
    rw [hstep, incrementAll_live rest 1 (t1 + WINDOW_MS) _ hin, hlen]
  · intro now t1 hlt
    simp only [checkLimit]
    rw [if_neg (by omega)]
    norm_num [UPLOAD_LIMIT]
  · intro now t1 hge
    simp only [checkLimit]
    rw [if_pos (by omega)]
    norm_num [UPLOAD_LIMIT]

/-- Witness for C3 at concrete inputs: ten increments at time 0, the 11th
check denied with `remaining = 0`, allowed again after the window. -/
theorem C3_rate_limiter_witness :
    ((incrementAll (0 :: [0, 0, 0, 0, 0, 0, 0, 0, 0]) ⟨none, none⟩)
        = ⟨some ⟨10, WINDOW_MS⟩, some (WINDOW_MS + 1000)⟩)
    ∧ checkLimit 5 ⟨some ⟨10, 0 + WINDOW_MS⟩, some (0 + WINDOW_MS + 1000)⟩
        = ⟨false, 0, 0 + WINDOW_MS⟩
    ∧ checkLimit (WINDOW_MS + 7) ⟨some ⟨10, 0 + WINDOW_MS⟩, some (0 + WINDOW_MS + 1000)⟩
        = ⟨true, 9, WINDOW_MS + 7 + WINDOW_MS⟩ := by
  refine ⟨?_, ?_, ?_⟩
  · have h := C3_rate_limiter.2.2.2.1 0 [0, 0, 0, 0, 0, 0, 0, 0, 0] none
      (by decide) (by decide)
    simpa using h
  · exact C3_rate_limiter.2.2.2.2.1 5 0 (by decide)
  · exact C3_rate_limiter.2.2.2.2.2 (WINDOW_MS + 7) 0 (by omega)

/-! ## C10 — `updateIndex` is idempotent per version -/
/-- C10: if the stored index already contains an entry with the same
version string, `updateIndex` stores the index back unchanged (no
duplicate appended, existing entries untouched); and for every bucket,
running `updateIndex` twice with the same metadata equals running it
once. -/
theorem C10_updateIndex_idempotent :
    (∀ (b : R2Bucket) (scope packageName : String) (m : PackageMetadata)
        (idx : PackageIndex),
      getIndex b scope packageName = some idx →
      idx.versions.any (fun v => v.version = m.version) = true →
      getIndex (updateIndex b scope packageName m) scope packageName = some idx)
    ∧ (∀ (b : R2Bucket) (scope packageName : String) (m : PackageMetadata),
      updateIndex (updateIndex b scope packageName m) scope packageName m
        = updateIndex b scope packageName m) := by
  constructor
  · intro b scope packageName m idx hget hany
    rw [getIndex_updateIndex]
    have hkey := getIndex_eq_some.mp hget
    unfold updateIndexResult
    rw [hkey]
    simp only [hany, if_pos]
  · intro b scope packageName m
    have hres : updateIndexResult (updateIndex b scope packageName m) scope packageName m
        = updateIndexResult b scope packageName m := by
      conv_lhs => rw [updateIndexResult]
      unfold updateIndex
      rw [bucketPut_self]
      dsimp only
      rw [if_pos (updateIndexResult_has_version b scope packageName m)]
    show bucketPut _ _ _ = _
    rw [hres]
    unfold updateIndex
    exact bucketPut_idem _ _ _

/-- Witness for C10 at a concrete index already containing version
`1.0.0`. -/
theorem C10_updateIndex_idempotent_witness :
    (getIndex
        (bucketPut emptyBucket (buildIndexKey "alice" "postgres")
          (.indexObj ⟨"@alice/postgres", [⟨"1.0.0", "sha256-a", 3, "t0", []⟩]⟩))
        "alice" "postgres"
      = some ⟨"@alice/postgres", [⟨"1.0.0", "sha256-a", 3, "t0", []⟩]⟩)
    ∧ ([(⟨"1.0.0", "sha256-a", 3, "t0", []⟩ : VersionInfo)].any
        (fun v => v.version = "1.0.0") = true)
    ∧ getIndex
        (updateIndex
          (bucketPut emptyBucket (buildIndexKey "alice" "postgres")
            (.indexObj ⟨"@alice/postgres", [⟨"1.0.0", "sha256-a", 3, "t0", []⟩]⟩))
          "alice" "postgres"
          ⟨"@alice/postgres", "1.0.0", "sha256-b", 9, "t1", "alice", []⟩)
        "alice" "postgres"
      = some ⟨"@alice/postgres", [⟨"1.0.0", "sha256-a", 3, "t0", []⟩]⟩ :=
  ⟨by decide, by decide,
    C10_updateIndex_idempotent.1 _ "alice" "postgres"
      ⟨"@alice/postgres", "1.0.0", "sha256-b", 9, "t1", "alice", []⟩
      ⟨"@alice/postgres", [⟨"1.0.0", "sha256-a", 3, "t0", []⟩]⟩
      (by decide) (by decide)⟩

theorem packageUploadHandle_conflict_eq
    (env : UploadEnv) (req : UploadRequest) (bucket : R2Bucket)
    (rate : String → RateLimiterState) {ip token : String} {user : GitHubUser}
    {p : String × String}
    (hip : req.ip = some ip)
    (htok : extractBearerToken req.authHeader = some token)
    (huser : env.userOf token = some user)
    (hname : validatePackageName (buildPackageName req.scope req.packageName) = some p)
    (hauth : isAdmin env.perms user.id = true ∨ req.scope = user.login)
    (hver : validateVersion req.version = true)
    (hex : packageVersionExists bucket req.scope req.packageName req.version = true) :
    packageUploadHandle env req bucket rate = ⟨⟨409, some "version_exists"⟩, bucket, rate⟩ := by
  have hauth' : ¬ (¬ isAdmin env.perms user.id = true ∧ req.scope ≠ user.login) := by
    rcases hauth with h | h
    · exact fun hc => hc.1 h
    · exact fun hc => hc.2 h
  unfold packageUploadHandle
  simp only [hip, htok, huser, hname]
  rw [if_neg hauth', if_neg (by rw [hver]; simp), if_pos hex]

theorem packageUploadHandle_success_eq
    (env : UploadEnv) (req : UploadRequest) (bucket : R2Bucket)
    (rate : String → RateLimiterState) {ip token : String} {user : GitHubUser}
    {p : String × String} {data : List Nat}
    (hip : req.ip = some ip)
    (htok : extractBearerToken req.authHeader = some token)
    (huser : env.userOf token = some user)
    (hname : validatePackageName (buildPackageName req.scope req.packageName) = some p)
    (hauth : isAdmin env.perms user.id = true ∨ req.scope = user.login)
    (hver : validateVersion req.version = true)
    (hexf : packageVersionExists bucket req.scope req.packageName req.version = false)
    (hrate : (checkLimit env.now (rate ip)).allowed = true)
    (hsize : validateFileSize (jsParseInt (req.contentLength.getD "0")) = true)
    (hbody : req.body = .ok data) :
    packageUploadHandle env req bucket rate
      = ⟨⟨201, none⟩,
          updateIndex
            (storeMetadata
              (storePackage bucket req.scope req.packageName req.version data)
              req.scope req.packageName req.version
              (uploadMetadata env req user data))
            req.scope req.packageName (uploadMetadata env req user data),
          fun k => if k = ip then rateIncrement env.now (rate ip) else rate k⟩ := by
  have hauth' : ¬ (¬ isAdmin env.perms user.id = true ∧ req.scope ≠ user.login) := by
    rcases hauth with h | h
    · exact fun hc => hc.1 h
    · exact fun hc => hc.2 h
  unfold packageUploadHandle
  simp only [hip, htok, huser, hname]
  rw [if_neg hauth', if_neg (by rw [hver]; simp), if_neg (by rw [hexf]; simp),
    if_neg (by rw [hrate]; simp), if_neg (by rw [hsize]; simp), hbody]
  rfl

/-- On a successful run, the archive is stored under the archive key built
from the request's raw scope. -/
theorem uploadSuccess_bucket_archive
    (env : UploadEnv) (req : UploadRequest) (bucket : R2Bucket)
    (user : GitHubUser) (data : List Nat) :
    (updateIndex
        (storeMetadata
          (storePackage bucket req.scope req.packageName req.version data)
          req.scope req.packageName req.version (uploadMetadata env req user data))
        req.scope req.packageName (uploadMetadata env req user data))
      (buildPackageKey req.scope req.packageName req.version)
      = some (.archive data) := by
  unfold updateIndex
  rw [bucketPut_ne _ _ _ _
    (fun h => indexKey_ne_packageKey req.scope req.packageName req.version h.symm)]
  unfold storeMetadata
  rw [bucketPut_ne _ _ _ _
    (fun h => metadataKey_ne_packageKey req.scope req.packageName req.version h.symm)]
  unfold storePackage
  exact bucketPut_self _ _ _

/-- On a successful run, the metadata document is stored under the
metadata key built from the request's raw scope. -/
theorem uploadSuccess_bucket_metadata
    (env : UploadEnv) (req : UploadRequest) (bucket : R2Bucket)
    (user : GitHubUser) (data : List Nat) :
    (updateIndex
        (storeMetadata
          (storePackage bucket req.scope req.packageName req.version data)
          req.scope req.packageName req.version (uploadMetadata env req user data))
        req.scope req.packageName (uploadMetadata env req user data))
      (buildMetadataKey req.scope req.packageName req.version)
      = some (.metaObj (uploadMetadata env req user data)) := by
  unfold updateIndex
  rw [bucketPut_ne _ _ _ _
    (fun h => indexKey_ne_metadataKey req.scope req.packageName req.version h.symm)]
  unfold storeMetadata
  exact bucketPut_self _ _ _

/-! ## C1 — upload create-once: 201 on absence, 409 on presence -/
/-- C1: whenever the upload request passes the earlier gates (client IP
present, bearer token resolves to a GitHub user, package name valid,
uploader is an admin or the scope equals the login, version format valid,
rate limit allows, payload size valid, body readable), the pipeline
responds 409 with error code `version_exists` and leaves the store
untouched exactly when the existence probe (HEAD on the archive key)
finds the version present; when the probe misses, it responds 201 and
persists the archive under the archive key. -/
theorem C1_upload_conflict
    (env : UploadEnv) (req : UploadRequest) (bucket : R2Bucket)
    (rate : String → RateLimiterState) (ip token : String) (user : GitHubUser)
    (p : String × String) (data : List Nat)
    (hip : req.ip = some ip)
    (htok : extractBearerToken req.authHeader = some token)
    (huser : env.userOf token = some user)
    (hname : validatePackageName (buildPackageName req.scope req.packageName) = some p)
    (hauth : isAdmin env.perms user.id = true ∨ req.scope = user.login)
    (hver : validateVersion req.version = true)
    (hrate : (checkLimit env.now (rate ip)).allowed = true)
    (hsize : validateFileSize (jsParseInt (req.contentLength.getD "0")) = true)
    (hbody : req.body = .ok data) :
    ((packageUploadHandle env req bucket rate).result.status = 409
      ↔ packageVersionExists bucket req.scope req.packageName req.version = true)
    ∧ (packageVersionExists bucket req.scope req.packageName req.version = true →
        (packageUploadHandle env req bucket rate).result = ⟨409, some "version_exists"⟩
        ∧ (packageUploadHandle env req bucket rate).bucket = bucket)
    ∧ (packageVersionExists bucket req.scope req.packageName req.version = false →
        (packageUploadHandle env req bucket rate).result = ⟨201, none⟩
        ∧ (packageUploadHandle env req bucket rate).bucket
            (buildPackageKey req.scope req.packageName req.version)
          = some (.archive data)) := by
  by_cases hex : packageVersionExists bucket req.scope req.packageName req.version = true
  · rw [packageUploadHandle_conflict_eq env req bucket rate hip htok huser hname hauth hver hex]
    refine ⟨by simpa using hex, fun _ => ⟨rfl, rfl⟩, ?_⟩
    intro hfalse
    rw [hex] at hfalse
    cases hfalse
  · have hexf : packageVersionExists bucket req.scope req.packageName req.version = false := by
      simpa using hex
    rw [packageUploadHandle_success_eq env req bucket rate hip htok huser hname hauth hver
      hexf hrate hsize hbody]
    refine ⟨by simp [hexf], ?_, fun _ => ⟨rfl, ?_⟩⟩
    · intro htrue
      rw [htrue] at hexf
      cases hexf
    · exact uploadSuccess_bucket_archive env req bucket user data

/-- Witness for C1 at concrete inputs: a first upload of
`@alice/postgres@1.0.0` into an empty store responds 201 and persists the
archive; the probe then finds it, and a second identical upload responds
409 `version_exists` leaving the store unchanged. -/
theorem C1_upload_conflict_witness :
    packageVersionExists emptyBucket "alice" "postgres" "1.0.0" = false
    ∧ (packageUploadHandle envAlice reqAliceLower emptyBucket rateFresh).result = ⟨201, none⟩
    ∧ (packageUploadHandle envAlice reqAliceLower emptyBucket rateFresh).bucket
        (buildPackageKey "alice" "postgres" "1.0.0") = some (.archive [1, 2, 3])
    ∧ (packageUploadHandle envAlice reqAliceLower
          (packageUploadHandle envAlice reqAliceLower emptyBucket rateFresh).bucket
          rateFresh).result
        = ⟨409, some "version_exists"⟩ := by
  have h1 := C1_upload_conflict envAlice reqAliceLower emptyBucket rateFresh
    "203.0.113.7" "tok" ⟨"alice", 1⟩ ("alice", "postgres") [1, 2, 3]
    rfl (by decide) rfl (by decide) (Or.inr rfl) (by decide) (by decide) (by decide) rfl
  have h2 := C1_upload_conflict envAlice reqAliceLower
    (packageUploadHandle envAlice reqAliceLower emptyBucket rateFresh).bucket rateFresh
    "203.0.113.7" "tok" ⟨"alice", 1⟩ ("alice", "postgres") [1, 2, 3]
    rfl (by decide) rfl (by decide) (Or.inr rfl) (by decide) (by decide) (by decide) rfl
  refine ⟨by decide, (h1.2.2 (by decide)).1, (h1.2.2 (by decide)).2, (h2.2.1 (by decide)).1⟩

/-! ## C4 — the upload pipeline does not normalize the scope -/
/-- The C4 claim states the upload pipeline normalizes the request scope
before building storage keys and before comparing it with the identity,
so that uploads differing only in scope case address the same stored
package.  Concretely false: an admin upload with scope `"Alice"` stores
the archive under `packages/@Alice/...` and nothing under the normalized
key; re-uploading the same version with scope `"alice"` is **not**
answered 409 but creates a second package; and a non-admin user with
login `"alice"` is rejected 403 for scope `"Alice"` although the two
scopes normalize identically. -/
theorem C4_counterexample :
    (packageUploadHandle envCarolAdmin reqAliceUpper emptyBucket rateFresh).result
      = ⟨201, none⟩
    ∧ (packageUploadHandle envCarolAdmin reqAliceUpper emptyBucket rateFresh).bucket
        (buildPackageKey "Alice" "postgres" "1.0.0") = some (.archive [1, 2, 3])
    ∧ (packageUploadHandle envCarolAdmin reqAliceUpper emptyBucket rateFresh).bucket
        (buildPackageKey (normalizeScope "Alice") "postgres" "1.0.0") = none
    ∧ (packageUploadHandle envCarolAdmin reqAliceLower
          (packageUploadHandle envCarolAdmin reqAliceUpper emptyBucket rateFresh).bucket
          rateFresh).result
        = ⟨201, none⟩
    ∧ (packageUploadHandle envAlice reqAliceUpper emptyBucket rateFresh).result
        = ⟨403, some "forbidden"⟩
    ∧ normalizeScope "Alice" = normalizeScope "alice" := by
  refine ⟨?_, ?_, ?_, ?_, ?_, by decide⟩ <;> decide

/-- C4 (amended): the upload pipeline uses the request scope **raw**: the
uploader check is case-sensitive string equality with `user.login` (any
non-admin request whose scope differs from the login — even only in
letter case — is rejected 403 `forbidden`), and the storage keys embed
the raw scope, so requests whose scopes differ at all (in particular only
in letter case) address distinct archive keys.  (`checkPermissions`
normalizes, but the upload path does not call it.) -/
theorem C4_upload_raw_scope_amended :
    (∀ (s1 s2 packageName version : String), s1 ≠ s2 →
      buildPackageKey s1 packageName version ≠ buildPackageKey s2 packageName version)
    ∧ (∀ (env : UploadEnv) (req : UploadRequest) (bucket : R2Bucket)
        (rate : String → RateLimiterState) (ip token : String) (user : GitHubUser)
        (p : String × String),
      req.ip = some ip →
      extractBearerToken req.authHeader = some token →
      env.userOf token = some user →
      validatePackageName (buildPackageName req.scope req.packageName) = some p →
      isAdmin env.perms user.id = false →
      req.scope ≠ user.login →
      (packageUploadHandle env req bucket rate).result = ⟨403, some "forbidden"⟩) := by
  constructor
  · intro s1 s2 packageName version hne hcon
    exact hne (packageKey_inj_scope packageName version hcon)
  · intro env req bucket rate ip token user p hip htok huser hname hadmin hne
    unfold packageUploadHandle
    simp only [hip, htok, huser, hname]
    rw [if_pos ⟨by rw [hadmin]; simp, hne⟩]

/-- Witness for C4 (amended) at concrete inputs. -/
theorem C4_upload_raw_scope_amended_witness :
    (("Alice" : String) ≠ "alice"
      ∧ buildPackageKey "Alice" "postgres" "1.0.0" ≠ buildPackageKey "alice" "postgres" "1.0.0")
    ∧ (packageUploadHandle envAlice reqAliceUpper emptyBucket rateFresh).result
        = ⟨403, some "forbidden"⟩ :=
  ⟨⟨by decide, C4_upload_raw_scope_amended.1 "Alice" "alice" "postgres" "1.0.0" (by decide)⟩,
    C4_upload_raw_scope_amended.2 envAlice reqAliceUpper emptyBucket rateFresh
      "203.0.113.7" "tok" ⟨"alice", 1⟩ ("Alice", "postgres")
      rfl (by decide) rfl (by decide) (by decide) (by decide)⟩

/-! ## C7 — manifest extraction is best-effort only in the caller -/
/-- The C7 claim states `extractDependencies` never raises on a missing or
malformed manifest and returns an empty dependency map in that case.
False: on an archive containing no `qll.info` entry it throws
(`Failed to extract dependencies from package: qll.info not found ...`)
rather than returning an empty map. -/
theorem C7_counterexample :
    extractDependencies (.ok []) (fun _ => .error "boom")
      = .error ("Failed to extract dependencies from package: "
          ++ "qll.info not found in package. Valid .qll packages must contain a qll.info file.")
      := rfl

/-- C7 (amended): `extractDependencies` throws on a missing or malformed
manifest, but the upload pipeline wraps the call in try/catch: for every
unzip and JSON-parse behaviour the upload still succeeds (201), and
whenever extraction throws, the metadata is persisted with an empty
dependency map. -/
theorem C7_extract_best_effort_amended
    (env : UploadEnv) (req : UploadRequest) (bucket : R2Bucket)
    (rate : String → RateLimiterState) (ip token : String) (user : GitHubUser)
    (p : String × String) (data : List Nat)
    (hip : req.ip = some ip)
    (htok : extractBearerToken req.authHeader = some token)
    (huser : env.userOf token = some user)
    (hname : validatePackageName (buildPackageName req.scope req.packageName) = some p)
    (hauth : isAdmin env.perms user.id = true ∨ req.scope = user.login)
    (hver : validateVersion req.version = true)
    (hexf : packageVersionExists bucket req.scope req.packageName req.version = false)
    (hrate : (checkLimit env.now (rate ip)).allowed = true)
    (hsize : validateFileSize (jsParseInt (req.contentLength.getD "0")) = true)
    (hbody : req.body = .ok data) :
    (packageUploadHandle env req bucket rate).result = ⟨201, none⟩
    ∧ (∀ e, extractDependencies (env.unzip data) env.parseJson = .error e →
        (packageUploadHandle env req bucket rate).bucket
          (buildMetadataKey req.scope req.packageName req.version)
          = some (.metaObj ⟨buildPackageName req.scope req.packageName, req.version,
              env.integrityOf data, data.length, env.nowIso, user.login, []⟩)) := by
  rw [packageUploadHandle_success_eq env req bucket rate hip htok huser hname hauth hver
    hexf hrate hsize hbody]
  refine ⟨rfl, ?_⟩
  intro e he
  have hmeta := uploadSuccess_bucket_metadata env req bucket user data
  dsimp only
  rw [hmeta]
  unfold uploadMetadata
  rw [he]

/-- Witness for C7 (amended): `envAlice`'s unzip always throws, the upload
still returns 201 and stores metadata with an empty dependency map. -/
theorem C7_extract_best_effort_amended_witness :
    (packageUploadHandle envAlice reqAliceLower emptyBucket rateFresh).result = ⟨201, none⟩
    ∧ (packageUploadHandle envAlice reqAliceLower emptyBucket rateFresh).bucket
        (buildMetadataKey "alice" "postgres" "1.0.0")
      = some (.metaObj ⟨"@alice/postgres", "1.0.0", "sha256-deadbeef", 3,
          "2026-01-01T00:00:00Z", "alice", []⟩) := by
  have h := C7_extract_best_effort_amended envAlice reqAliceLower emptyBucket rateFresh
    "203.0.113.7" "tok" ⟨"alice", 1⟩ ("alice", "postgres") [1, 2, 3]
    rfl (by decide) rfl (by decide) (Or.inr rfl) (by decide) (by decide) (by decide)
    (by decide) rfl
  refine ⟨h.1, ?_⟩
  have h2 := h.2 ("Failed to extract dependencies from package: " ++ "not a zip") rfl
  exact h2

/-! ## C9 — deleting the last version removes the whole index -/
theorem bucketDelete_ne (b : R2Bucket) (k x : String) (h : x ≠ k) :
    bucketDelete b k x = b x := by
  simp [bucketDelete, h]

theorem getIndex_after_content_deletes (b : R2Bucket) (scope packageName version : String) :
    getIndex
      (bucketDelete (bucketDelete b (buildPackageKey scope packageName version))
        (buildMetadataKey scope packageName version))
      scope packageName
      = getIndex b scope packageName := by
  unfold getIndex
  rw [bucketDelete_ne _ _ _ (indexKey_ne_metadataKey scope packageName version),
    bucketDelete_ne _ _ _ (indexKey_ne_packageKey scope packageName version)]

theorem getIndex_delete_index (b : R2Bucket) (scope packageName : String) :
    getIndex (bucketDelete b (buildIndexKey scope packageName)) scope packageName = none := by
  unfold getIndex
  simp [bucketDelete]

/-- C9: when the archive exists and the stored index's version list
filters down to nothing after removing the deleted version (in particular
when the index holds exactly that one version), `deletePackageVersion`
deletes the whole index document — no empty list is stored — and a
subsequent version-list request (any raw scope normalizing to this scope)
is answered 404; when other versions remain, exactly the deleted
version's summaries are removed and the rest of the index is stored
unchanged. -/
theorem C9_delete_version
    (b : R2Bucket) (scope packageName version : String) (idx : PackageIndex)
    (hex : packageVersionExists b scope packageName version = true)
    (hget : getIndex b scope packageName = some idx) :
    ((idx.versions.filter (fun v => v.version ≠ version)).isEmpty = true →
      ∃ b', deletePackageVersion b scope packageName version = .ok b'
        ∧ getIndex b' scope packageName = none
        ∧ ∀ rawScope, normalizeScope rawScope = scope →
            packageListHandle b' rawScope packageName = ⟨404, some "not_found"⟩)
    ∧ ((idx.versions.filter (fun v => v.version ≠ version)).isEmpty = false →
      ∃ b', deletePackageVersion b scope packageName version = .ok b'
        ∧ getIndex b' scope packageName
            = some ⟨idx.name, idx.versions.filter (fun v => v.version ≠ version)⟩) := by
  have hrun : deletePackageVersion b scope packageName version
      = (let b2 := bucketDelete (bucketDelete b (buildPackageKey scope packageName version))
          (buildMetadataKey scope packageName version)
         let remaining := idx.versions.filter (fun v => v.version ≠ version)
         if remaining.isEmpty then .ok (bucketDelete b2 (buildIndexKey scope packageName))
         else .ok (bucketPut b2 (buildIndexKey scope packageName)
           (.indexObj ⟨idx.name, remaining⟩))) := by
    unfold deletePackageVersion
    rw [if_neg (by simp [hex])]
    have hidx := getIndex_after_content_deletes b scope packageName version
    rw [hget] at hidx
    simp only [hidx]
  constructor
  · intro hempty
    rw [hrun]
    dsimp only
    rw [if_pos hempty]
    refine ⟨_, rfl, getIndex_delete_index _ _ _, ?_⟩
    intro rawScope hnorm
    unfold packageListHandle getVersionList
    rw [hnorm]
    dsimp only
    rw [getIndex_delete_index]
  · intro hnonempty
    rw [hrun]
    dsimp only
    rw [if_neg (by rw [hnonempty]; simp)]
    refine ⟨_, rfl, ?_⟩
    rw [getIndex_eq_some]
    exact bucketPut_self _ _ _

/-- Witness for C9: a store holding exactly version `1.0.0` of
`@alice/postgres`; deleting it removes the index and the list endpoint
answers 404 (also for the raw scope `"@Alice"`). -/
theorem C9_delete_version_witness :
    (∃ b', deletePackageVersion
        (bucketPut
          (bucketPut emptyBucket (buildPackageKey "alice" "postgres" "1.0.0") (.archive [1]))
          (buildIndexKey "alice" "postgres")
          (.indexObj ⟨"@alice/postgres", [⟨"1.0.0", "sha256-a", 1, "t0", []⟩]⟩))
        "alice" "postgres" "1.0.0" = .ok b'
      ∧ getIndex b' "alice" "postgres" = none
      ∧ ∀ rawScope, normalizeScope rawScope = "alice" →
          packageListHandle b' rawScope "postgres" = ⟨404, some "not_found"⟩) := by
  have h := C9_delete_version
    (bucketPut
      (bucketPut emptyBucket (buildPackageKey "alice" "postgres" "1.0.0") (.archive [1]))
      (buildIndexKey "alice" "postgres")
      (.indexObj ⟨"@alice/postgres", [⟨"1.0.0", "sha256-a", 1, "t0", []⟩]⟩))
    "alice" "postgres" "1.0.0"
    ⟨"@alice/postgres", [⟨"1.0.0", "sha256-a", 1, "t0", []⟩]⟩
    (by decide) (by decide)
  exact h.1 (by decide)

/-! ### Lemmas about `splitOnDot` -/
theorem splitOnDot_ne_nil (cs : List Char) : splitOnDot cs ≠ [] := by
  cases cs with
  | nil => simp [splitOnDot]
  | cons c rest =>
    unfold splitOnDot
    by_cases h : c = '.'
    · simp [h]
    · simp only [h, if_false]
      split <;> simp

theorem joinDots_splitOnDot (cs : List Char) : joinDots (splitOnDot cs) = cs := by
  induction cs with
  | nil => rfl
  | cons c rest ih =>
    unfold splitOnDot
    by_cases h : c = '.'
    · subst h
      simp only [if_pos rfl]
      rcases hsp : splitOnDot rest with _ | ⟨g, gs⟩
      · exact absurd hsp (splitOnDot_ne_nil rest)
      · show joinDots ([] :: g :: gs) = '.' :: rest
        show [] ++ '.' :: joinDots (g :: gs) = '.' :: rest
        rw [hsp] at ih
        simp [ih]
    · simp only [h, if_false]
      rcases hsp : splitOnDot rest with _ | ⟨g, gs⟩
      · exact absurd hsp (splitOnDot_ne_nil rest)
      · rw [hsp] at ih
        cases gs with
        | nil =>
          show joinDots [c :: g] = c :: rest
          show c :: g = c :: rest
          simpa using ih
        | cons g' gs' =>
          show joinDots ((c :: g) :: g' :: gs') = c :: rest
          show (c :: g) ++ '.' :: joinDots (g' :: gs') = c :: rest
          have : g ++ '.' :: joinDots (g' :: gs') = rest := ih
          simpa using this

theorem splitOnDot_of_noDot {g : List Char} (h : ∀ c ∈ g, c ≠ '.') :
    splitOnDot g = [g] := by
  induction g with
  | nil => rfl
  | cons c rest ih =>
    unfold splitOnDot
    rw [if_neg (h c (by simp))]
    rw [ih (fun x hx => h x (by simp [hx]))]

theorem splitOnDot_append_group {g rest : List Char} (h : ∀ c ∈ g, c ≠ '.') :
    splitOnDot (g ++ '.' :: rest) = g :: splitOnDot rest := by
  induction g with
  | nil => simp [splitOnDot]
  | cons c gtl ih =>
    have hc : c ≠ '.' := h c (by simp)
    have ih' := ih (fun x hx => h x (by simp [hx]))
    show splitOnDot (c :: (gtl ++ '.' :: rest)) = (c :: gtl) :: splitOnDot rest
    conv_lhs => rw [splitOnDot]
    rw [if_neg hc, ih']

theorem takeWhile_append_all {p : Char → Bool} {xs ys : List Char}
    (h : ∀ c ∈ xs, p c = true) :
    (xs ++ ys).takeWhile p = xs ++ ys.takeWhile p := by
  induction xs with
  | nil => simp
  | cons x xtl ih =>
    simp only [List.cons_append, List.takeWhile_cons, h x (by simp)]
    rw [ih (fun c hc => h c (by simp [hc]))]
    simp

/-! ### Digit characters -/
theorem isDigit_ne_dot {c : Char} (h : c.isDigit = true) : c ≠ '.' := by
  intro hcon
  subst hcon
  exact absurd h (by decide)

theorem isDigit_keep {c : Char} (h : c.isDigit = true) :
    (!(c == '-' || c == '+')) = true := by
  have h1 : c ≠ '-' := by
    intro hcon
    subst hcon
    exact absurd h (by decide)
  have h2 : c ≠ '+' := by
    intro hcon
    subst hcon
    exact absurd h (by decide)
  simp [h1, h2]

theorem jsNumberL_digits {g : List Char} (hne : g ≠ [])
    (hdig : g.all Char.isDigit = true) : jsNumberL g = .int (digitsToNat g) := by
  unfold jsNumberL
  rw [if_neg hne, if_pos hdig]

/-! ### Inversion of `numericTriple` -/
theorem numericTriple_inv {v : String} (h : numericTriple v = true) :
    ∃ g0 g1 g2 gs, splitOnDot v.data = g0 :: g1 :: g2 :: gs
      ∧ g0 ≠ [] ∧ g0.all Char.isDigit = true
      ∧ g1 ≠ [] ∧ g1.all Char.isDigit = true
      ∧ g2 ≠ [] ∧ g2.all Char.isDigit = true := by
  unfold numericTriple at h
  rcases hsp : splitOnDot v.data with _ | ⟨g0, _ | ⟨g1, _ | ⟨g2, gs⟩⟩⟩ <;>
    rw [hsp] at h <;> simp only [Bool.and_eq_true, Bool.not_eq_true'] at h
  · cases h
  · cases h
  · cases h
  · refine ⟨g0, g1, g2, gs, rfl, ?_, h.1.1.2, ?_, h.1.2.2, ?_, h.2.2⟩
    · simpa using h.1.1.1
    · simpa using h.1.2.1
    · simpa using h.2.1

theorem versionComps_at (cs : List Char) (i : Nat) :
    (versionComps cs)[i]? = ((splitOnDot cs)[i]?).map jsNumberL := by
  unfold versionComps
  exact List.getElem?_map jsNumberL (splitOnDot cs) i

/-! ### The strip in `compareVersions` does not disturb numeric triples -/
theorem stripped_split {v : String} (h : numericTriple v = true) :
    ∀ i < 3, (splitOnDot (headBeforeDashPlus v.data))[i]? = (splitOnDot v.data)[i]? := by
  obtain ⟨g0, g1, g2, gs, hsp, hne0, hd0, hne1, hd1, hne2, hd2⟩ := numericTriple_inv h
  have hall0 := List.all_eq_true.mp hd0
  have hall1 := List.all_eq_true.mp hd1
  have hall2 := List.all_eq_true.mp hd2
  have hp0 : ∀ c ∈ g0, (!(c == '-' || c == '+')) = true := fun c hc => isDigit_keep (hall0 c hc)
  have hp1 : ∀ c ∈ g1, (!(c == '-' || c == '+')) = true := fun c hc => isDigit_keep (hall1 c hc)
  have hp2 : ∀ c ∈ g2, (!(c == '-' || c == '+')) = true := fun c hc => isDigit_keep (hall2 c hc)
  have hnd0 : ∀ c ∈ g0, c ≠ '.' := fun c hc => isDigit_ne_dot (hall0 c hc)
  have hnd1 : ∀ c ∈ g1, c ≠ '.' := fun c hc => isDigit_ne_dot (hall1 c hc)
  have hnd2 : ∀ c ∈ g2, c ≠ '.' := fun c hc => isDigit_ne_dot (hall2 c hc)
  have hdotkeep : (!(('.' : Char) == '-' || ('.' : Char) == '+')) = true := by decide
  have hjoin : v.data = g0 ++ '.' :: (g1 ++ '.' :: joinDots (g2 :: gs)) := by
    conv_lhs => rw [← joinDots_splitOnDot v.data]
    rw [hsp]
    rfl
  have htake : headBeforeDashPlus v.data
      = g0 ++ '.' :: (g1 ++ '.' ::
          (joinDots (g2 :: gs)).takeWhile (fun c => !(c == '-' || c == '+'))) := by
    unfold headBeforeDashPlus
    rw [hjoin, takeWhile_append_all hp0,
      List.takeWhile_cons_of_pos (p := fun c => !(c == '-' || c == '+')) hdotkeep,
      takeWhile_append_all hp1,
      List.takeWhile_cons_of_pos (p := fun c => !(c == '-' || c == '+')) hdotkeep]
  intro i hi
  cases gs with
  | nil =>
    have htw2 : (joinDots [g2]).takeWhile (fun c => !(c == '-' || c == '+')) = g2 := by
      show g2.takeWhile (fun c => !(c == '-' || c == '+')) = g2
      have h2e : (g2 ++ ([] : List Char)).takeWhile (fun c => !(c == '-' || c == '+'))
          = g2 ++ ([] : List Char).takeWhile (fun c => !(c == '-' || c == '+')) :=
        takeWhile_append_all hp2
      simpa using h2e
    rw [htake, htw2, splitOnDot_append_group hnd0, splitOnDot_append_group hnd1,
      splitOnDot_of_noDot hnd2, hsp]
  | cons g' gs' =>
    have hjcons : joinDots (g2 :: g' :: gs') = g2 ++ '.' :: joinDots (g' :: gs') := rfl
    have htw2 : (joinDots (g2 :: g' :: gs')).takeWhile (fun c => !(c == '-' || c == '+'))
        = g2 ++ '.' :: (joinDots (g' :: gs')).takeWhile (fun c => !(c == '-' || c == '+')) := by
      rw [hjcons, takeWhile_append_all hp2,
        List.takeWhile_cons_of_pos (p := fun c => !(c == '-' || c == '+')) hdotkeep]
    rw [htake, htw2, splitOnDot_append_group hnd0, splitOnDot_append_group hnd1,
      splitOnDot_append_group hnd2, hsp]
    interval_cases i <;> simp

/-! ### Numeric component values and comparator characterizations -/
theorem comps_int {v : String} (h : numericTriple v = true) :
    ∃ x0 x1 x2 : Int,
      compAt (versionComps v.data) 0 = .num (.int x0)
      ∧ compAt (versionComps v.data) 1 = .num (.int x1)
      ∧ compAt (versionComps v.data) 2 = .num (.int x2)
      ∧ tripleKey v = (x0, x1, x2)
      ∧ compAt (versionComps (headBeforeDashPlus v.data)) 0 = .num (.int x0)
      ∧ compAt (versionComps (headBeforeDashPlus v.data)) 1 = .num (.int x1)
      ∧ compAt (versionComps (headBeforeDashPlus v.data)) 2 = .num (.int x2)
      ∧ specTriple v = (x0, x1, x2) := by
  obtain ⟨g0, g1, g2, gs, hsp, hne0, hd0, hne1, hd1, hne2, hd2⟩ := numericTriple_inv h
  have hstrip := stripped_split h
  have hv0 : (versionComps v.data)[0]? = some (.int (digitsToNat g0)) := by
    rw [versionComps_at, hsp]
    simp [jsNumberL_digits hne0 hd0]
  have hv1 : (versionComps v.data)[1]? = some (.int (digitsToNat g1)) := by
    rw [versionComps_at, hsp]
    simp [jsNumberL_digits hne1 hd1]
  have hv2 : (versionComps v.data)[2]? = some (.int (digitsToNat g2)) := by
    rw [versionComps_at, hsp]
    simp [jsNumberL_digits hne2 hd2]
  have hs0 : (versionComps (headBeforeDashPlus v.data))[0]? = some (.int (digitsToNat g0)) := by
    rw [versionComps_at, hstrip 0 (by omega), hsp]
    simp [jsNumberL_digits hne0 hd0]
  have hs1 : (versionComps (headBeforeDashPlus v.data))[1]? = some (.int (digitsToNat g1)) := by
    rw [versionComps_at, hstrip 1 (by omega), hsp]
    simp [jsNumberL_digits hne1 hd1]
  have hs2 : (versionComps (headBeforeDashPlus v.data))[2]? = some (.int (digitsToNat g2)) := by
    rw [versionComps_at, hstrip 2 (by omega), hsp]
    simp [jsNumberL_digits hne2 hd2]
  refine ⟨digitsToNat g0, digitsToNat g1, digitsToNat g2,
    ?_, ?_, ?_, ?_, ?_, ?_, ?_, ?_⟩
  · simp [compAt, hv0]
  · simp [compAt, hv1]
  · simp [compAt, hv2]
  · unfold tripleKey tripleOfComps
    simp [compAt, hv0, hv1, hv2, jsCompVal]
  · simp [compAt, hs0]
  · simp [compAt, hs1]
  · simp [compAt, hs2]
  · unfold specTriple tripleOfComps
    simp [compAt, hs0, hs1, hs2, jsCompVal]

theorem indexSortCompare_numeric {a b : String} (ha : numericTriple a = true)
    (hb : numericTriple b = true) :
    ∃ c : Int, indexSortCompare a b = some c
      ∧ ((c ≤ 0) ↔ lexGE (tripleKey a) (tripleKey b))
      ∧ ((0 < c) ↔ lexGT (tripleKey b) (tripleKey a)) := by
  obtain ⟨x0, x1, x2, hA0, hA1, hA2, hKA, -, -, -, -⟩ := comps_int ha
  obtain ⟨y0, y1, y2, hB0, hB1, hB2, hKB, -, -, -, -⟩ := comps_int hb
  unfold indexSortCompare
  dsimp only
  rw [hA0, hA1, hA2, hB0, hB1, hB2, hKA, hKB]
  simp only [jsStrictNeq, jsSubNum, decide_eq_true_eq]
  unfold lexGE lexGT
  dsimp only
  split_ifs with h0 h1 h2 <;> refine ⟨_, rfl, ?_, ?_⟩ <;> omega

theorem compareVersions_numeric {a b : String} (ha : numericTriple a = true)
    (hb : numericTriple b = true) :
    (0 < compareVersions a b ↔ lexGT (tripleKey a) (tripleKey b)) := by
  obtain ⟨x0, x1, x2, -, -, -, hKA, hS0, hS1, hS2, -⟩ := comps_int ha
  obtain ⟨y0, y1, y2, -, -, -, hKB, hT0, hT1, hT2, -⟩ := comps_int hb
  unfold compareVersions
  dsimp only
  rw [hS0, hS1, hS2, hT0, hT1, hT2, hKA, hKB]
  simp only [jsGtNum, decide_eq_true_eq]
  unfold lexGT
  dsimp only
  split_ifs with h0 h1 h2 h3 h4 h5 <;> omega

theorem specTriple_eq_tripleKey {v : String} (h : numericTriple v = true) :
    specTriple v = tripleKey v := by
  obtain ⟨x0, x1, x2, -, -, -, hK, -, -, -, hS⟩ := comps_int h
  rw [hK, hS]

/-! ### `lexGE` is a total preorder -/
theorem lexGE_trans {x y z : Int × Int × Int} (h1 : lexGE x y) (h2 : lexGE y z) :
    lexGE x z := by
  obtain ⟨a0, a1, a2⟩ := x
  obtain ⟨b0, b1, b2⟩ := y
  obtain ⟨c0, c1, c2⟩ := z
  unfold lexGE at *
  dsimp only at *
  omega

theorem lexGE_total (x y : Int × Int × Int) : lexGE x y ∨ lexGE y x := by
  obtain ⟨a0, a1, a2⟩ := x
  obtain ⟨b0, b1, b2⟩ := y
  unfold lexGE
  dsimp only
  omega

theorem lexGE_of_not_GE {x y : Int × Int × Int} (h : ¬ lexGE x y) : lexGE y x := by
  rcases lexGE_total x y with hc | hc
  · exact absurd hc h
  · exact hc

theorem lexGT_of_GE_ne {x y : Int × Int × Int} (h1 : lexGE x y) (h2 : x ≠ y) :
    lexGT x y := by
  obtain ⟨a0, a1, a2⟩ := x
  obtain ⟨b0, b1, b2⟩ := y
  unfold lexGE at h1
  unfold lexGT
  dsimp only at *
  have h2' : ¬ (a0 = b0 ∧ a1 = b1 ∧ a2 = b2) := by
    intro hc
    exact h2 (by simp [hc.1, hc.2.1, hc.2.2])
  omega

theorem not_lexGT_of_GE {x y : Int × Int × Int} (h : lexGE x y) : ¬ lexGT y x := by
  obtain ⟨a0, a1, a2⟩ := x
  obtain ⟨b0, b1, b2⟩ := y
  unfold lexGE at h
  unfold lexGT
  dsimp only at *
  omega

theorem jsCmpLe_indexEntry {a b : VersionInfo}
    (ha : numericTriple a.version = true) (hb : numericTriple b.version = true) :
    jsCmpLe indexEntryCompare a b = true ↔ entryKeyGE a b := by
  obtain ⟨c, hc, hle, -⟩ := indexSortCompare_numeric ha hb
  unfold jsCmpLe indexEntryCompare
  rw [hc]
  simpa [entryKeyGE] using hle

theorem entryKeyGE_of_cmpLe_false {a b : VersionInfo}
    (ha : numericTriple a.version = true) (hb : numericTriple b.version = true)
    (h : ¬ jsCmpLe indexEntryCompare a b = true) : entryKeyGE b a := by
  have hn : ¬ entryKeyGE a b := fun hc => h ((jsCmpLe_indexEntry ha hb).mpr hc)
  exact lexGE_of_not_GE hn

theorem jsInsert_sorted {x : VersionInfo} {l : List VersionInfo}
    (hx : numericTriple x.version = true)
    (hl : ∀ z ∈ l, numericTriple z.version = true)
    (hs : l.Pairwise entryKeyGE) :
    (jsInsert indexEntryCompare x l).Pairwise entryKeyGE := by
  induction l with
  | nil => simp [jsInsert]
  | cons y ys ih =>
    have hy : numericTriple y.version = true := hl y (by simp)
    have hys : ∀ z ∈ ys, numericTriple z.version = true := fun z hz => hl z (by simp [hz])
    rw [List.pairwise_cons] at hs
    unfold jsInsert
    by_cases hc : jsCmpLe indexEntryCompare x y = true
    · rw [if_pos hc]
      rw [List.pairwise_cons]
      refine ⟨?_, List.pairwise_cons.mpr hs⟩
      intro z hz
      rcases List.mem_cons.mp hz with rfl | hz'
      · exact (jsCmpLe_indexEntry hx hy).mp hc
      · exact lexGE_trans ((jsCmpLe_indexEntry hx hy).mp hc) (hs.1 z hz')
    · rw [if_neg hc]
      rw [List.pairwise_cons]
      refine ⟨?_, ih hys hs.2⟩
      intro z hz
      rcases (mem_jsInsert _ x z ys).mp hz with rfl | hz'
      · exact entryKeyGE_of_cmpLe_false hx hy hc
      · exact hs.1 z hz'

theorem jsSort_sorted {l : List VersionInfo}
    (hl : ∀ z ∈ l, numericTriple z.version = true) :
    (jsSort indexEntryCompare l).Pairwise entryKeyGE := by
  induction l with
  | nil => simp [jsSort]
  | cons x xs ih =>
    unfold jsSort
    refine jsInsert_sorted (hl x (by simp)) ?_ (ih fun z hz => hl z (by simp [hz]))
    intro z hz
    exact hl z (by simp [(mem_jsSort _ z xs).mp hz])

theorem updateIndex_inv {scope packageName : String} {b : R2Bucket} {m : PackageMetadata}
    (hm : numericTriple m.version = true) (hb : IndexInv scope packageName b) :
    IndexInv scope packageName (updateIndex b scope packageName m) := by
  intro idx hget
  rw [getIndex_updateIndex] at hget
  injection hget with hidx
  subst hidx
  unfold updateIndexResult
  split
  · rename_i i heq
    have hi := hb i (getIndex_eq_some.mpr heq)
    dsimp only
    split
    · exact hi
    · constructor
      · intro z hz
        simp only [mem_jsSort, List.mem_append, List.mem_singleton] at hz
        rcases hz with hz | rfl
        · exact hi.1 z hz
        · exact hm
      · refine jsSort_sorted ?_
        intro z hz
        rcases List.mem_append.mp hz with hz | hz
        · exact hi.1 z hz
        · rw [List.mem_singleton.mp hz]
          exact hm
  · dsimp only
    split
    · exact ⟨by simp, by simp⟩
    · constructor
      · intro z hz
        simp only [mem_jsSort, List.nil_append, List.mem_singleton] at hz
        rw [hz]
        exact hm
      · refine jsSort_sorted ?_
        intro z hz
        simp only [List.nil_append, List.mem_singleton] at hz
        rw [hz]
        exact hm

theorem foldl_updateIndex_inv {scope packageName : String} (ms : List PackageMetadata)
    (b0 : R2Bucket) (hms : ∀ m ∈ ms, numericTriple m.version = true)
    (h0 : IndexInv scope packageName b0) :
    IndexInv scope packageName
      (ms.foldl (fun b m => updateIndex b scope packageName m) b0) := by
  induction ms generalizing b0 with
  | nil => exact h0
  | cons m ms ih =>
    exact ih (updateIndex b0 scope packageName m)
      (fun x hx => hms x (by simp [hx]))
      (updateIndex_inv (hms m (by simp)) h0)

/-- The C5 claim states the stored index is strictly descending by the
3-component numeric tuple with pre-release/build metadata ignored.
False: the `updateIndex` comparator does **not** strip suffixes —
`Number("0-alpha")` is `NaN`, the comparator returns `NaN` (treated as 0
by `Array.prototype.sort`), so after uploading `1.0.0-alpha` and then
`1.0.1` the stored order is `["1.0.0-alpha", "1.0.1"]`, which is
*ascending* by the claimed tuple ((1,0,0) before (1,0,1)). -/
theorem C5_counterexample :
    (getIndex (updateIndex (updateIndex emptyBucket "alice" "pkg" mAlpha)
        "alice" "pkg" mPatch) "alice" "pkg").map
      (fun idx => idx.versions.map VersionInfo.version)
      = some ["1.0.0-alpha", "1.0.1"]
    ∧ ¬ (["1.0.0-alpha", "1.0.1"].Pairwise
        (fun a b => lexGT (specTriple a) (specTriple b))) := by
  constructor
  · decide
  · intro hpair
    rw [List.pairwise_cons] at hpair
    exact absurd (hpair.1 "1.0.1" (by simp)) (by decide)

/-- C5 (amended): restricted to versions whose first three dot-separated
components are plain digit runs (no pre-release/build metadata reaching
the numeric triple), any sequence of `updateIndex` calls starting from no
index yields a versions list sorted non-increasingly by the
`(major, minor, patch)` tuple, and strictly descending whenever the
stored tuples are pairwise distinct (ties are not broken further). -/
theorem C5_index_sorted_amended
    (scope packageName : String) (ms : List PackageMetadata) (b0 : R2Bucket)
    (h0 : getIndex b0 scope packageName = none)
    (hms : ∀ m ∈ ms, numericTriple m.version = true)
    (idx : PackageIndex)
    (hget : getIndex (ms.foldl (fun b m => updateIndex b scope packageName m) b0)
        scope packageName = some idx) :
    idx.versions.Pairwise (fun a b => lexGE (specTriple a.version) (specTriple b.version))
    ∧ (idx.versions.Pairwise (fun a b => specTriple a.version ≠ specTriple b.version) →
        idx.versions.Pairwise
          (fun a b => lexGT (specTriple a.version) (specTriple b.version))) := by
  have hinv0 : IndexInv scope packageName b0 := by
    intro i hi
    rw [h0] at hi
    cases hi
  have hinv := foldl_updateIndex_inv ms b0 hms hinv0 idx hget
  have hspec : idx.versions.Pairwise
      (fun a b => lexGE (specTriple a.version) (specTriple b.version)) := by
    refine hinv.2.imp_of_mem ?_
    intro a b hain hbin hr
    rw [specTriple_eq_tripleKey (hinv.1 a hain), specTriple_eq_tripleKey (hinv.1 b hbin)]
    exact hr
  refine ⟨hspec, ?_⟩
  intro hne
  refine (hspec.and hne).imp ?_
  intro a b hab
  exact lexGT_of_GE_ne hab.1 hab.2

/-- Witness for C5 (amended): uploading `2.0.0` then `1.0.0` yields the
index `["2.0.0", "1.0.0"]`, sorted descending. -/
theorem C5_index_sorted_amended_witness :
    (getIndex emptyBucket "alice" "pkg" = none)
    ∧ (∀ m ∈ [mTwo, mOne], numericTriple m.version = true)
    ∧ (getIndex ([mTwo, mOne].foldl
        (fun b m => updateIndex b "alice" "pkg" m) emptyBucket) "alice" "pkg"
        = some ⟨"@alice/pkg",
            [⟨"2.0.0", "sha256-c", 3, "t3", []⟩, ⟨"1.0.0", "sha256-d", 4, "t4", []⟩]⟩)
    ∧ ([(⟨"2.0.0", "sha256-c", 3, "t3", []⟩ : VersionInfo),
        ⟨"1.0.0", "sha256-d", 4, "t4", []⟩].Pairwise
        (fun a b => lexGE (specTriple a.version) (specTriple b.version))) := by
  refine ⟨rfl, by decide, by decide, ?_⟩
  exact (C5_index_sorted_amended "alice" "pkg" [mTwo, mOne] emptyBucket rfl (by decide)
    ⟨"@alice/pkg",
      [⟨"2.0.0", "sha256-c", 3, "t3", []⟩, ⟨"1.0.0", "sha256-d", 4, "t4", []⟩]⟩
    (by decide)).1

/-! ## C6 — `findLatestVersion` vs. head of the stored list -/
/-- The C6 claim states the reduce-based `findLatestVersion` always equals
the first element of the stored (sorted) versions list.  False on a
reachable index: after uploading `1.0.0-alpha` then `1.0.1` the stored
list is `["1.0.0-alpha", "1.0.1"]` (the index comparator treats the
`NaN` patch component as a tie), while `findLatestVersion` — which
**does** strip the suffix — reduces to `1.0.1` ≠ head. -/
theorem C6_counterexample :
    (getVersionList (updateIndex (updateIndex emptyBucket "alice" "pkg" mAlpha)
        "alice" "pkg" mPatch) "alice" "pkg").map
      (fun r => (r.1.map VersionInfo.version, r.2.map (fun v => v.version)))
      = some (["1.0.0-alpha", "1.0.1"], some "1.0.1")
    ∧ (["1.0.0-alpha", "1.0.1"] : List String).head? ≠ some "1.0.1" := by
  exact ⟨by decide, by decide⟩

theorem foldl_latest_keep {v : VersionInfo} {rest : List VersionInfo}
    (h : ∀ x ∈ rest, ¬ (0 < compareVersions x.version v.version)) :
    rest.foldl (fun latest current =>
      if 0 < compareVersions current.version latest.version then current else latest) v
      = v := by
  induction rest with
  | nil => rfl
  | cons x xs ih =>
    show xs.foldl _ (if 0 < compareVersions x.version v.version then x else v) = v
    rw [if_neg (h x (by simp))]
    exact ih (fun z hz => h z (by simp [hz]))

/-- C6 (amended): for every stored index whose versions all carry plain
numeric triples and are sorted by the index order (the shape `updateIndex`
maintains for such versions), the reduce-based `findLatestVersion`
computation agrees with the head-of-sorted-list definition:
`getVersionList` reports `latest = head` of the stored list, and `latest`
is `none` exactly when the versions list is empty (the `none ↔ empty`
part needs no sortedness at all). -/
theorem C6_latest_refines_head_amended
    (b : R2Bucket) (scope packageName : String) (idx : PackageIndex)
    (hget : getIndex b scope packageName = some idx)
    (hall : ∀ z ∈ idx.versions, numericTriple z.version = true)
    (hsorted : idx.versions.Pairwise entryKeyGE) :
    getVersionList b scope packageName = some (idx.versions, idx.versions.head?)
    ∧ (findLatestVersion idx.versions = none ↔ idx.versions = []) := by
  have hlatest : findLatestVersion idx.versions = idx.versions.head? := by
    cases hv : idx.versions with
    | nil => rfl
    | cons v rest =>
      rw [hv] at hsorted hall
      rw [List.pairwise_cons] at hsorted
      have hvP : numericTriple v.version = true := hall v (by simp)
      unfold findLatestVersion
      show some (rest.foldl _ v) = some v
      rw [foldl_latest_keep]
      intro x hx
      have hxP : numericTriple x.version = true := hall x (by simp [hx])
      rw [compareVersions_numeric hxP hvP]
      exact not_lexGT_of_GE (hsorted.1 x hx)
  constructor
  · unfold getVersionList
    rw [hget]
    dsimp only
    rw [hlatest]
  · rw [hlatest]
    cases idx.versions <;> simp

/-- Witness for C6 (amended) on a concrete sorted two-version index. -/
theorem C6_latest_refines_head_amended_witness :
    getVersionList ([mTwo, mOne].foldl
        (fun b m => updateIndex b "alice" "pkg" m) emptyBucket) "alice" "pkg"
      = some ([⟨"2.0.0", "sha256-c", 3, "t3", []⟩, ⟨"1.0.0", "sha256-d", 4, "t4", []⟩],
          some ⟨"2.0.0", "sha256-c", 3, "t3", []⟩) := by
  have h := C6_latest_refines_head_amended
    ([mTwo, mOne].foldl (fun b m => updateIndex b "alice" "pkg" m) emptyBucket)
    "alice" "pkg"
    ⟨"@alice/pkg",
      [⟨"2.0.0", "sha256-c", 3, "t3", []⟩, ⟨"1.0.0", "sha256-d", 4, "t4", []⟩]⟩
    (by decide) (by decide) (by decide)
  exact h.1
